import Mathlib

/-!
Verification of the fuzzy phrase-matching engine of the
urlbar-search-interventions experiment.

The development shallowly embeds the two QueryScorer variants:

* the phrase-trie scorer of src/QueryScorer.js (namespace QueryScorer):
  documents carry phrase strings, phrases are lowercased, whitespace-split
  and inserted (together with their variation expansions) into a word trie;
  a query is scored by walking the trie, comparing the query words against
  the edge words with Levenshtein distance and pruning edges whose distance
  exceeds the threshold; reaching a leaf records the accumulated distance
  for every document attached to the leaf;

* the legacy flat bag-of-words scorer (namespace QueryScorerFlat):
  documents carry word sets; the score of a document is the mean over the
  query words of the minimum edit distance to any of the document's words.

JS strings are embedded as lists of characters, JS Map objects as
association lists in insertion order, JS Set objects as duplicate-free
lists in insertion order, and the minDistanceByDoc map as a function
into Option Nat (none encodes a missing key).  The JS number Infinity
used as the no-match sentinel is embedded as none : Option Nat.
-/

namespace QueryScorer

/-- A word of a phrase or query: a JS string embedded as its characters. -/
abbrev Word := List Char

/-- Character class of the whitespace regex used by the JS code. -/
def isWs (c : Char) : Bool := c.isWhitespace

/-- Embedding of String.prototype.toLocaleLowerCase, character-wise. -/
def lowerWord (w : Word) : Word := w.map Char.toLower

/-- Embedding of String.prototype.trim: strip leading and trailing
whitespace. -/
def trimWS (cs : Word) : Word :=
  ((cs.dropWhile isWs).reverse.dropWhile isWs).reverse

/-- Helper for the whitespace split, a one-pass state machine: some acc
means a token acc is currently being read, none means the position is
inside a whitespace run whose preceding token has already been emitted (so
reaching the end inside a run emits a trailing empty token, as the JS
regex split does). -/
def splitWSAux : Word → Option Word → List Word
  | [], some acc => [acc]
  | [], none => [[]]
  | c :: rest, some acc =>
    if isWs c then acc :: splitWSAux rest none
    else splitWSAux rest (some (acc ++ [c]))
  | c :: rest, none =>
    if isWs c then splitWSAux rest none
    else splitWSAux rest (some [c])

/-- Embedding of JS String.prototype.split with the whitespace-run regex:
splitting the empty string yields one empty token, a leading or trailing
whitespace run yields a leading or trailing empty token. -/
def jsSplitWS (cs : Word) : List Word := splitWSAux cs (some [])

/-- The tokenization pipeline shared by addDocument (line 68) and score
(line 106): trim, split on whitespace runs, lowercase each token. -/
def tokenize (cs : Word) : List Word := (jsSplitWS (trimWS cs)).map lowerWord

/-- Inner loop of the rolling-row Levenshtein update (JS lines 276-291).
Arguments: remaining characters of word2, the cell p1 at the diagonal, the
cell p2 just computed to the left, and the remaining cells of the previous
row p1 (starting one past the diagonal). -/
def nextCells (ci cr cd : Nat) (x : Char) :
    List Char → Nat → Nat → List Nat → List Nat
  | [], _, _, _ => []
  | _ :: _, _, _, [] => []
  | y :: ys, diag, cur, up :: rest =>
    let c0 := min (min (diag + (if x = y then 0 else cr)) (up + cd)) (cur + ci)
    c0 :: nextCells ci cr cd x ys up c0 rest

/-- One iteration of the outer Levenshtein loop (JS lines 273-296):
computes the next row p2 from the previous row p1 for the character x of
word1. -/
def nextRow (ci cr cd : Nat) (x : Char) (ys : List Char) (p1 : List Nat) :
    List Nat :=
  match p1 with
  | [] => []
  | d0 :: rest => (d0 + cd) :: nextCells ci cr cd x ys d0 (d0 + cd) rest

/-- Embedding of QueryScorer._levenshtein (JS lines 250-301): rolling
two-row dynamic program with fast paths for identical and empty inputs.
The JS costs default to 1; callers inside the scorer always use the
defaults. -/
def levenshteinJS (word1 word2 : Word) (costIns costRep costDel : Nat) :
    Nat :=
  if word1 = word2 then 0
  else if word1.length = 0 then word2.length * costIns
  else if word2.length = 0 then word1.length * costDel
  else
    let l2 := word2.length
    let p1 := (List.range (l2 + 1)).map (· * costIns)
    let pfinal :=
      word1.foldl (fun p x => nextRow costIns costRep costDel x word2 p) p1
    pfinal.getD l2 0

/-- The edge comparison used by the trie traversal (JS line 216): the
Levenshtein distance at the default costs. -/
def lev (w1 w2 : Word) : Nat := levenshteinJS w1 w2 1 1 1

/-- Specification-side definition for claim C3: the standard Levenshtein
edit distance with per-operation costs, written as the textbook recursion
(delete from word1 costs costDel, insert from word2 costs costIns,
substitution costs costRep unless the characters agree). -/
def levSpec (ci cr cd : Nat) : List Char → List Char → Nat
  | [], ys => ys.length * ci
  | x :: xs, [] => (x :: xs).length * cd
  | x :: xs, y :: ys =>
    min (min (levSpec ci cr cd xs ys + (if x = y then 0 else cr))
             (levSpec ci cr cd xs (y :: ys) + cd))
        (levSpec ci cr cd (x :: xs) ys + ci)
termination_by xs ys => xs.length + ys.length
decreasing_by
  · simp only [List.length_cons]; omega
  · simp only [List.length_cons]; omega
  · simp only [List.length_cons]; omega

theorem levSpec_self (ci cr cd : Nat) : ∀ w : Word, levSpec ci cr cd w w = 0
  | [] => by simp [levSpec]
  | c :: w => by
    have ih := levSpec_self ci cr cd w
    simp [levSpec, ih]

theorem levSpec_nil_right (ci cr cd : Nat) :
    ∀ w : Word, levSpec ci cr cd w [] = w.length * cd
  | [] => by simp [levSpec]
  | _ :: _ => by simp [levSpec]

/-- The Levenshtein recurrence also holds at the last characters of the two
words; this is the recurrence the prefix-indexed rolling rows of the JS
code actually use. -/
theorem levSpec_snoc (ci cr cd : Nat) (x y : Char) :
    ∀ a b : List Char,
      levSpec ci cr cd (a ++ [x]) (b ++ [y]) =
        min (min (levSpec ci cr cd a b + (if x = y then 0 else cr))
                 (levSpec ci cr cd a (b ++ [y]) + cd))
            (levSpec ci cr cd (a ++ [x]) b + ci) := by
  intro a
  induction a with
  | nil =>
    intro b
    induction b with
    | nil => simp [levSpec]
    | cons b0 b' ihb =>
      simp only [List.nil_append, List.cons_append] at ihb ⊢
      rw [show ([x] : List Char) = [] ++ [x] from rfl] at ihb
      simp only [List.nil_append] at ihb
      simp only [levSpec, ihb, List.length_cons, List.length_append,
        List.length_singleton, Nat.add_mul, Nat.one_mul]
      simp only [← min_add_add_right]
      ac_rfl
  | cons a0 a' iha =>
    intro b
    induction b with
    | nil =>
      have h1 := iha []
      simp only [List.nil_append] at h1
      simp only [List.cons_append, List.nil_append, levSpec, h1,
        levSpec_nil_right, List.length_cons, List.length_append,
        List.length_singleton, List.length_nil, Nat.add_mul, Nat.one_mul,
        Nat.add_zero, Nat.zero_add]
      simp only [← min_add_add_right]
      ac_rfl
    | cons b0 b' ihb =>
      have h1 := iha b'
      have h2 := iha (b0 :: b')
      simp only [List.cons_append] at h1 h2 ihb ⊢
      simp only [levSpec, h1, h2, ihb]
      simp only [← min_add_add_right]
      ac_rfl

/-- Distances from u to the successive extensions of the prefix b by the
characters of the third argument: the row cells beyond a diagonal. -/
def rowTail (ci cr cd : Nat) (u : List Char) : List Char → List Char → List Nat
  | _, [] => []
  | b, y :: ys => levSpec ci cr cd u (b ++ [y]) :: rowTail ci cr cd u (b ++ [y]) ys

theorem nextCells_spec (ci cr cd : Nat) (x : Char) (a : List Char) :
    ∀ (ys b : List Char),
      nextCells ci cr cd x ys (levSpec ci cr cd a b)
          (levSpec ci cr cd (a ++ [x]) b) (rowTail ci cr cd a b ys)
        = rowTail ci cr cd (a ++ [x]) b ys
  | [], b => by simp [nextCells, rowTail]
  | y :: ys, b => by
    simp only [rowTail, nextCells, ← levSpec_snoc]
    exact congrArg _ (nextCells_spec ci cr cd x a ys (b ++ [y]))

/-- A full row of the dynamic program: the distances from u to every
prefix of ys. -/
def rowFull (ci cr cd : Nat) (u ys : List Char) : List Nat :=
  levSpec ci cr cd u [] :: rowTail ci cr cd u [] ys

theorem nextRow_spec (ci cr cd : Nat) (x : Char) (u ys : List Char) :
    nextRow ci cr cd x ys (rowFull ci cr cd u ys)
      = rowFull ci cr cd (u ++ [x]) ys := by
  have hu : levSpec ci cr cd u [] + cd = levSpec ci cr cd (u ++ [x]) [] := by
    simp [levSpec_nil_right, Nat.add_mul]
  simp only [rowFull, nextRow, hu]
  exact congrArg _ (nextCells_spec ci cr cd x u ys [])

theorem foldl_nextRow_spec (ci cr cd : Nat) (ys : List Char) :
    ∀ (rest u : List Char),
      rest.foldl (fun p c => nextRow ci cr cd c ys p) (rowFull ci cr cd u ys)
        = rowFull ci cr cd (u ++ rest) ys
  | [], u => by simp
  | x :: rest, u => by
    simp only [List.foldl_cons, nextRow_spec,
      foldl_nextRow_spec ci cr cd ys rest (u ++ [x])]
    simp

theorem rowTail_nil_left (ci cr cd : Nat) :
    ∀ (t b : List Char),
      rowTail ci cr cd [] b t
        = (List.range t.length).map (fun j => (b.length + 1 + j) * ci)
  | [], b => by simp [rowTail]
  | y :: t, b => by
    rw [rowTail, rowTail_nil_left ci cr cd t (b ++ [y])]
    simp only [List.length_cons, List.range_succ_eq_map, List.map_cons,
      List.map_map, levSpec, List.length_append, List.length_singleton,
      List.length_nil]
    refine congrArg₂ List.cons (congrArg (fun k => k * ci) (by omega)) ?_
    refine List.map_congr_left fun j _ => ?_
    simp only [Function.comp_apply]
    refine congrArg (fun k => k * ci) (by omega)

theorem rowFull_zero (ci cr cd : Nat) (ys : List Char) :
    (List.range (ys.length + 1)).map (· * ci) = rowFull ci cr cd [] ys := by
  rw [rowFull, rowTail_nil_left ci cr cd ys []]
  simp only [levSpec, List.length_nil, Nat.zero_mul, List.range_succ_eq_map,
    List.map_cons, List.map_map]
  refine congrArg₂ List.cons (by omega) ?_
  refine List.map_congr_left fun j _ => ?_
  simp only [Function.comp_apply]
  refine congrArg (fun k => k * ci) (by omega)

theorem rowFull_getD (ci cr cd : Nat) :
    ∀ (ys b u : List Char),
      (levSpec ci cr cd u b :: rowTail ci cr cd u b ys).getD ys.length 0
        = levSpec ci cr cd u (b ++ ys)
  | [], b, u => by simp [rowTail]
  | y :: ys, b, u => by
    rw [List.length_cons, List.getD_cons_succ, rowTail,
      rowFull_getD ci cr cd ys (b ++ [y]) u]
    simp

/-- The rolling two-row implementation agrees with the textbook recursion
at every pair of inputs and every cost triple. -/
theorem levenshteinJS_eq_levSpec (w1 w2 : Word) (ci cr cd : Nat) :
    levenshteinJS w1 w2 ci cr cd = levSpec ci cr cd w1 w2 := by
  unfold levenshteinJS
  by_cases h12 : w1 = w2
  · simp [h12, levSpec_self]
  · simp only [h12, if_false]
    by_cases h1 : w1.length = 0
    · have hw : w1 = [] := List.length_eq_zero.mp h1
      subst hw; simp [levSpec]
    · simp only [h1, if_false]
      by_cases h2 : w2.length = 0
      · have hw : w2 = [] := List.length_eq_zero.mp h2
        subst hw; simp [h2, levSpec_nil_right]
      · simp only [h2, if_false]
        rw [rowFull_zero ci cr cd w2, foldl_nextRow_spec, List.nil_append,
          rowFull, rowFull_getD ci cr cd w2 [] w1, List.nil_append]

/-- Constant-cost structure: insertion, substitution and deletion costs as
passed to the JS routine, expressed for the Mathlib edit-distance API. -/
def stdCost (ci cr cd : Nat) : Levenshtein.Cost Char Char Nat where
  delete _ := cd
  insert _ := ci
  substitute a b := if a = b then 0 else cr

@[simp] theorem stdCost_delete (ci cr cd : Nat) (a : Char) :
    (stdCost ci cr cd).delete a = cd := rfl

@[simp] theorem stdCost_insert (ci cr cd : Nat) (b : Char) :
    (stdCost ci cr cd).insert b = ci := rfl

@[simp] theorem stdCost_substitute (ci cr cd : Nat) (a b : Char) :
    (stdCost ci cr cd).substitute a b = if a = b then 0 else cr := rfl

/-- The textbook recursion is the standard Levenshtein distance of the
Mathlib library at the constant-cost structure. -/
theorem levSpec_eq_levenshtein (ci cr cd : Nat) :
    ∀ xs ys : List Char,
      levSpec ci cr cd xs ys = levenshtein (stdCost ci cr cd) xs ys
  | [], [] => by simp [levSpec]
  | [], y :: ys => by
    have ih := levSpec_eq_levenshtein ci cr cd [] ys
    simp only [levSpec, List.length_nil] at ih
    simp only [levSpec, levenshtein_nil_cons, ← ih, List.length_cons,
      stdCost_insert, Nat.add_mul, Nat.one_mul]
    ac_rfl
  | x :: xs, [] => by
    have ih := levSpec_eq_levenshtein ci cr cd xs []
    simp only [levSpec_nil_right] at ih
    simp only [levSpec_nil_right, levenshtein_cons_nil, ← ih,
      List.length_cons, stdCost_delete, Nat.add_mul, Nat.one_mul]
    ac_rfl
  | x :: xs, y :: ys => by
    have ih1 := levSpec_eq_levenshtein ci cr cd xs ys
    have ih2 := levSpec_eq_levenshtein ci cr cd xs (y :: ys)
    have ih3 := levSpec_eq_levenshtein ci cr cd (x :: xs) ys
    rw [levSpec, ih1, ih2, ih3, levenshtein_cons_cons]
    simp only [stdCost_delete, stdCost_insert, stdCost_substitute]
    ac_rfl
termination_by xs ys => xs.length + ys.length

/-- C3: the rolling-two-row _levenshtein routine returns the standard
Levenshtein edit distance between word1 and word2 under the given
per-operation costs (here witnessed both against the textbook recursion
levSpec and against the Mathlib edit distance at the constant-cost
structure); in particular it returns 0 on identical inputs, and on an
empty input it returns the length of the other word times the
corresponding per-character cost. -/
theorem C3_levenshtein_correct (w1 w2 : Word) (ci cr cd : Nat) :
    levenshteinJS w1 w2 ci cr cd = levSpec ci cr cd w1 w2
    ∧ levenshteinJS w1 w2 ci cr cd = levenshtein (stdCost ci cr cd) w1 w2
    ∧ (w1 = w2 → levenshteinJS w1 w2 ci cr cd = 0)
    ∧ levenshteinJS [] w2 ci cr cd = w2.length * ci
    ∧ levenshteinJS w1 [] ci cr cd = w1.length * cd := by
  refine ⟨levenshteinJS_eq_levSpec w1 w2 ci cr cd, ?_, ?_, ?_, ?_⟩
  · rw [levenshteinJS_eq_levSpec, levSpec_eq_levenshtein]
  · intro h
    rw [levenshteinJS_eq_levSpec, h, levSpec_self]
  · rw [levenshteinJS_eq_levSpec]
    cases w2 with
    | nil => simp [levSpec]
    | cons y ys => rw [levSpec]
  · rw [levenshteinJS_eq_levSpec, levSpec_nil_right]

/-- Closed-form instantiation of C3 at concrete inputs, discharging the
conditional conjunct. -/
theorem C3_levenshtein_correct_witness :
    levenshteinJS (['a', 'b']) (['a', 'b']) 2 3 5 = 0
    ∧ levenshteinJS [] (['a', 'b', 'c']) 4 1 1 = 12 := by
  have h := C3_levenshtein_correct (['a', 'b']) (['a', 'b']) 2 3 5
  have h2 := C3_levenshtein_correct [] (['a', 'b', 'c']) 4 1 1
  exact ⟨h.2.2.1 rfl, by rw [h2.2.2.2.1]; decide⟩

/-- A document of the phrase-tree scorer: an id together with its phrase
strings (JS doc.id and doc.phrases). -/
structure Doc where
  id : String
  phrases : List Word
deriving DecidableEq

/-- A node of the phrase tree (JS class Node, lines 307-313): the word the
node matches, the documents some phrase of which passes through the node,
and the children keyed by their words.  The children map is an association
list in JS Map insertion order; the documents set is a duplicate-free list
in JS Set insertion order. -/
inductive Node where
  | mk (word : Word) (documents : List Doc) (children : List (Word × Node))

def Node.word : Node → Word
  | .mk w _ _ => w

def Node.documents : Node → List Doc
  | .mk _ d _ => d

def Node.children : Node → List (Word × Node)
  | .mk _ _ c => c

@[simp] theorem Node.word_mk (w : Word) (d : List Doc)
    (c : List (Word × Node)) : (Node.mk w d c).word = w := rfl

@[simp] theorem Node.documents_mk (w : Word) (d : List Doc)
    (c : List (Word × Node)) : (Node.mk w d c).documents = d := rfl

@[simp] theorem Node.children_mk (w : Word) (d : List Doc)
    (c : List (Word × Node)) : (Node.mk w d c).children = c := rfl

/-- Embedding of Map.prototype.get on a children map. -/
def getEntry (w : Word) : List (Word × Node) → Option Node
  | [] => none
  | (k, v) :: rest => if k = w then some v else getEntry w rest

/-- Embedding of Map.prototype.set on a children map: replace the value of
an existing key in place, otherwise append the new key at the end. -/
def setEntry (w : Word) (v : Node) : List (Word × Node) → List (Word × Node)
  | [] => [(w, v)]
  | (k, v') :: rest =>
    if k = w then (w, v) :: rest else (k, v') :: setEntry w v rest

/-- Embedding of Set.prototype.add: append if not already present. -/
def addDoc (doc : Doc) (docs : List Doc) : List Doc :=
  if doc ∈ docs then docs else docs ++ [doc]

/-- Embedding of QueryScorer._buildPhraseTree (JS lines 146-162).  The JS
pair (phrase, wordIndex) is embedded as the remaining word list
phrase.drop wordIndex, on which the recursion is structural; the JS
recursion advances wordIndex by one, consuming exactly this list. -/
def buildPhraseTree (node : Node) (doc : Doc) : List Word → Node
  | [] => node
  | w :: rest =>
    let word := lowerWord w
    let child0 := match getEntry word node.children with
      | some c => c
      | none => Node.mk word [] []
    let child1 := Node.mk child0.word (addDoc doc child0.documents)
      child0.children
    let child2 := buildPhraseTree child1 doc rest
    Node.mk node.word node.documents (setEntry word child2 node.children)

/-- The variations table (JS QueryScorer constructor parameter): trigger
words mapped to lists of raw replacement phrase strings, in Map insertion
order. -/
abbrev Variations := List (Word × List Word)

/-- Splice a replacement into a phrase (JS line 81): the trigger word at
the given index is replaced by the whitespace-split words of the
replacement string. -/
def spliceVariation (phrase : List Word) (index : Nat) (variation : Word) :
    List Word :=
  phrase.take index ++ jsSplitWS variation ++ phrase.drop (index + 1)

/-- Variation expansion inside addDocument (JS lines 73-85): the list
starts with the original phrase; for each variations entry whose trigger
occurs in the phrase, one variant per replacement is appended. -/
def expandPhrase (variations : Variations) (phrase : List Word) :
    List (List Word) :=
  variations.foldl
    (fun phrases tv =>
      match phrase.findIdx? (fun w => w = tv.1) with
      | some index =>
        phrases ++ tv.2.map (fun v => spliceVariation phrase index v)
      | none => phrases)
    [phrase]

/-- State of a QueryScorer instance (JS constructor, lines 46-51). -/
structure Scorer where
  distanceThreshold : Int
  variations : Variations
  documents : List Doc
  rootNode : Node

/-- Embedding of the QueryScorer constructor (JS lines 46-51).  The JS
defaults are distanceThreshold = 1 and an empty variations map.  Note the
constructor performs no validation of distanceThreshold. -/
def init (distanceThreshold : Int) (variations : Variations) : Scorer :=
  { distanceThreshold := distanceThreshold
    variations := variations
    documents := []
    rootNode := Node.mk [] [] [] }

/-- Embedding of QueryScorer.addDocument (JS lines 63-92). -/
def addDocument (s : Scorer) (doc : Doc) : Scorer :=
  { s with
    documents := addDoc doc s.documents
    rootNode := doc.phrases.foldl
      (fun root phraseStr =>
        let phrase := tokenize phraseStr
        (expandPhrase s.variations phrase).foldl
          (fun r p => buildPhraseTree r doc p) root)
      s.rootNode }

/-- A sequence of addDocument calls starting from a scorer. -/
def addDocuments (s : Scorer) (docs : List Doc) : Scorer :=
  docs.foldl addDocument s

theorem Node.sizeOf_children_lt (n : Node) : sizeOf n.children < sizeOf n := by
  cases n with
  | mk w d c => simp only [Node.children_mk, Node.mk.sizeOf_spec]; omega

mutual
/-- Embedding of QueryScorer._traverse (JS lines 182-233).  The
minDistanceByDoc map is embedded as a function into Option Nat; none
encodes an absent key.  pd is the phraseDistance accumulated so far and
idx the queryWordsIndex.  The JS leaf test is childrenByWord.size being
zero. -/
def traverse (θ : Int) (qws : List Word) (node : Node)
    (m : Doc → Option Nat) (idx : Nat) (pd : Nat) : Doc → Option Nat :=
  if node.children.isEmpty then
    fun doc =>
      if doc ∈ node.documents then
        some (match m doc with
          | some x => min pd x
          | none => pd)
      else m doc
  else if idx = qws.length then m
  else traverseList θ qws (qws.getD idx []) node.children m idx pd
termination_by sizeOf node
decreasing_by exact Node.sizeOf_children_lt node

/-- The for-of loop over the children map inside _traverse (JS lines
215-230), threading the minDistanceByDoc map left to right. -/
def traverseList (θ : Int) (qws : List Word) (qw : Word)
    (cs : List (Word × Node)) (m : Doc → Option Nat) (idx : Nat)
    (pd : Nat) : Doc → Option Nat :=
  match cs with
  | [] => m
  | (w, child) :: rest =>
    let dist := lev qw w
    let m' := if (dist : Int) ≤ θ then
        traverse θ qws child m (idx + 1) (pd + dist)
      else m
    traverseList θ qws qw rest m' idx pd
termination_by sizeOf cs
decreasing_by all_goals (simp; try omega)
end

/-- Refinement order on recorded distances: a is at most b, where none is
the absent key, treated as larger than every recorded distance. -/
def oLE : Option Nat → Option Nat → Prop
  | none, none => True
  | none, some _ => False
  | some _, none => True
  | some v, some w => v ≤ w

theorem oLE_refl (a : Option Nat) : oLE a a := by
  cases a <;> simp [oLE]

theorem oLE_trans {a b c : Option Nat} (h1 : oLE a b) (h2 : oLE b c) :
    oLE a c := by
  cases a <;> cases b <;> cases c <;> simp_all [oLE]
  omega

theorem oLE_some {a : Option Nat} {w : Nat} (h : oLE a (some w)) :
    ∃ v, a = some v ∧ v ≤ w := by
  cases a with
  | none => exact absurd h (by simp [oLE])
  | some v => exact ⟨v, rfl, h⟩

mutual
/-- The traversal only improves the distance map: every key of m stays
present, and recorded values never increase. -/
theorem traverse_oLE (θ : Int) (qws : List Word) (node : Node)
    (m : Doc → Option Nat) (idx pd : Nat) (doc : Doc) :
    oLE (traverse θ qws node m idx pd doc) (m doc) := by
  rw [traverse.eq_def]
  split
  · dsimp only
    split
    · cases h : m doc <;> simp [oLE, Nat.min_le_right]
    · exact oLE_refl _
  · split
    · exact oLE_refl _
    · exact traverseList_oLE θ qws (qws.getD idx []) node.children m idx pd
        doc
termination_by sizeOf node
decreasing_by exact Node.sizeOf_children_lt node

theorem traverseList_oLE (θ : Int) (qws : List Word) (qw : Word)
    (cs : List (Word × Node)) (m : Doc → Option Nat) (idx pd : Nat)
    (doc : Doc) :
    oLE (traverseList θ qws qw cs m idx pd doc) (m doc) := by
  match cs with
  | [] => rw [traverseList.eq_def]; exact oLE_refl _
  | (w, child) :: rest =>
    rw [traverseList.eq_def]
    dsimp only
    refine oLE_trans (traverseList_oLE θ qws qw rest
      (if ((lev qw w : Nat) : Int) ≤ θ then
        traverse θ qws child m (idx + 1) (pd + lev qw w)
      else m) idx pd doc) ?_
    split
    · exact traverse_oLE θ qws child m (idx + 1) (pd + lev qw w) doc
    · exact oLE_refl _
termination_by sizeOf cs
decreasing_by all_goals (simp; try omega)
end

/-- A matching path from a node: walking edges whose words are within the
distance threshold of the successive query words, consuming one query word
per edge, and ending at a leaf that carries the document.  The distance
index is the sum of the edge distances, exactly the phraseDistance the
traversal accumulates below the node. -/
inductive PathTo (θ : Int) (qws : List Word) (doc : Doc) :
    Node → Nat → Nat → Prop where
  | leaf (node : Node) (idx : Nat)
      (hleaf : node.children.isEmpty = true)
      (hdoc : doc ∈ node.documents) : PathTo θ qws doc node idx 0
  | step (node : Node) (idx : Nat) (w : Word) (child : Node) (d : Nat)
      (hmem : (w, child) ∈ node.children)
      (hidx : idx < qws.length)
      (hdist : ((lev (qws.getD idx []) w : Nat) : Int) ≤ θ)
      (hrest : PathTo θ qws doc child (idx + 1) d) :
      PathTo θ qws doc node idx (lev (qws.getD idx []) w + d)

theorem children_isEmpty_false {node : Node} {w : Word} {child : Node}
    (hmem : (w, child) ∈ node.children) :
    node.children.isEmpty = false := by
  cases hc : node.children with
  | nil => rw [hc] at hmem; exact absurd hmem (List.not_mem_nil _)
  | cons a l => simp [List.isEmpty]

mutual
/-- Soundness of the traversal: every recorded distance comes either from
the input map or from a matching path below the node. -/
theorem traverse_sound (θ : Int) (qws : List Word) (node : Node)
    (m : Doc → Option Nat) (idx pd : Nat) (doc : Doc) (v : Nat)
    (hidx : idx ≤ qws.length)
    (h : traverse θ qws node m idx pd doc = some v) :
    m doc = some v ∨ ∃ d, PathTo θ qws doc node idx d ∧ v = pd + d := by
  rw [traverse.eq_def] at h
  split at h
  · rename_i hleaf
    dsimp only at h
    split at h
    · rename_i hdoc
      cases hm : m doc with
      | none =>
        rw [hm] at h
        simp only [Option.some.injEq] at h
        exact Or.inr ⟨0, .leaf node idx hleaf hdoc, by omega⟩
      | some x =>
        rw [hm] at h
        simp only [Option.some.injEq] at h
        rcases Nat.le_total pd x with hle | hle
        · exact Or.inr ⟨0, .leaf node idx hleaf hdoc, by omega⟩
        · exact Or.inl (congrArg some (by omega))
    · exact Or.inl h
  · split at h
    · exact Or.inl h
    · rename_i hne hlen
      have hlt : idx < qws.length := Nat.lt_of_le_of_ne hidx hlen
      rcases traverseList_sound θ qws (qws.getD idx []) node.children m idx
          pd doc v hlt h with hm | ⟨w, child, d, hmem, hdist, hpath, hv⟩
      · exact Or.inl hm
      · exact Or.inr ⟨lev (qws.getD idx []) w + d,
          .step node idx w child d hmem hlt hdist hpath, by omega⟩
termination_by sizeOf node
decreasing_by exact Node.sizeOf_children_lt node

theorem traverseList_sound (θ : Int) (qws : List Word) (qw : Word)
    (cs : List (Word × Node)) (m : Doc → Option Nat) (idx pd : Nat)
    (doc : Doc) (v : Nat) (hidx : idx < qws.length)
    (h : traverseList θ qws qw cs m idx pd doc = some v) :
    m doc = some v ∨ ∃ w child d, (w, child) ∈ cs
      ∧ ((lev qw w : Nat) : Int) ≤ θ ∧ PathTo θ qws doc child (idx + 1) d
      ∧ v = pd + (lev qw w + d) := by
  match cs with
  | [] =>
    rw [traverseList.eq_def] at h
    exact Or.inl h
  | (w0, c0) :: rest =>
    rw [traverseList.eq_def] at h
    dsimp only at h
    rcases traverseList_sound θ qws qw rest
        (if ((lev qw w0 : Nat) : Int) ≤ θ then
          traverse θ qws c0 m (idx + 1) (pd + lev qw w0)
        else m) idx pd doc v hidx h with hm | ⟨w, child, d, hmem, hdist, hpath, hv⟩
    · by_cases hθ : ((lev qw w0 : Nat) : Int) ≤ θ
      · rw [if_pos hθ] at hm
        rcases traverse_sound θ qws c0 m (idx + 1) (pd + lev qw w0) doc v
            hidx hm with hm' | ⟨d, hpath, hv⟩
        · exact Or.inl hm'
        · exact Or.inr ⟨w0, c0, d, List.mem_cons_self _ _, hθ, hpath,
            by omega⟩
      · rw [if_neg hθ] at hm
        exact Or.inl hm
    · exact Or.inr ⟨w, child, d, List.mem_cons_of_mem _ hmem, hdist, hpath,
        hv⟩
termination_by sizeOf cs
decreasing_by all_goals (simp; try omega)
end

/-- Completeness of the traversal: a matching path below the node forces a
recorded distance at most the accumulated distance plus the path
distance. -/
theorem traverse_complete (θ : Int) (qws : List Word) {node : Node}
    {idx d : Nat} {doc : Doc} (h : PathTo θ qws doc node idx d) :
    ∀ (m : Doc → Option Nat) (pd : Nat),
      ∃ v, traverse θ qws node m idx pd doc = some v ∧ v ≤ pd + d := by
  induction h with
  | leaf n i hleaf hdoc =>
    intro m pd
    rw [traverse.eq_def, if_pos hleaf]
    simp only [hdoc, if_true]
    cases hm : m doc with
    | none => exact ⟨pd, rfl, by omega⟩
    | some x =>
      exact ⟨min pd x, rfl, by have := Nat.min_le_left pd x; omega⟩
  | step n i w child d' hmem hlt hdist hrest ih =>
    intro m pd
    rw [traverse.eq_def, children_isEmpty_false hmem]
    simp only [Bool.false_eq_true, if_false]
    rw [if_neg (Nat.ne_of_lt hlt)]
    have key : ∀ (cs : List (Word × Node)), (w, child) ∈ cs →
        ∀ (m' : Doc → Option Nat), ∃ v,
          traverseList θ qws (qws.getD i []) cs m' i pd doc = some v
            ∧ v ≤ pd + (lev (qws.getD i []) w + d') := by
      intro cs
      induction cs with
      | nil => intro hmem'; exact absurd hmem' (List.not_mem_nil _)
      | cons hd rest ihcs =>
        obtain ⟨w0, c0⟩ := hd
        intro hmem' m'
        rw [traverseList.eq_def]
        dsimp only
        rcases List.mem_cons.mp hmem' with heq | htail
        · injection heq with hw hc
          subst hw
          subst hc
          rw [if_pos hdist]
          obtain ⟨v0, hv0, hle0⟩ := ih m' (pd + lev (qws.getD i []) w)
          have hmono := traverseList_oLE θ qws (qws.getD i []) rest
            (traverse θ qws child m' (i + 1) (pd + lev (qws.getD i []) w))
            i pd doc
          rw [hv0] at hmono
          obtain ⟨v, hv, hvle⟩ := oLE_some hmono
          exact ⟨v, hv, by omega⟩
        · exact ihcs htail _
    exact key n.children hmem m

theorem toNat_ofNat_valid {n : Nat} (h : n.isValidChar) :
    (Char.ofNat n).toNat = n := by
  rw [Char.ofNat, dif_pos h]
  rfl

theorem char_toLower_idem (c : Char) : c.toLower.toLower = c.toLower := by
  unfold Char.toLower
  by_cases h : c.toNat ≥ 65 ∧ c.toNat ≤ 90
  · rw [if_pos h]
    have hv : Nat.isValidChar (c.toNat + 32) := Or.inl (by omega)
    rw [if_neg]
    rw [toNat_ofNat_valid hv]
    omega
  · rw [if_neg h, if_neg h]

theorem lowerWord_idem (w : Word) : lowerWord (lowerWord w) = lowerWord w := by
  unfold lowerWord
  rw [List.map_map]
  exact List.map_congr_left fun c _ => char_toLower_idem c

/-- Tokenized words are already lowercase, so the extra lowercasing done
inside _buildPhraseTree leaves them unchanged. -/
theorem tokenize_map_lowerWord (s : Word) :
    (tokenize s).map lowerWord = tokenize s := by
  unfold tokenize
  rw [List.map_map]
  exact List.map_congr_left fun w _ => lowerWord_idem w

theorem getEntry_mem {w : Word} {c : Node} :
    ∀ {cs : List (Word × Node)}, getEntry w cs = some c → (w, c) ∈ cs := by
  intro cs
  induction cs with
  | nil => intro h; simp [getEntry] at h
  | cons kv rest ih =>
    obtain ⟨k, v⟩ := kv
    intro h
    rw [getEntry] at h
    by_cases hk : k = w
    · rw [if_pos hk] at h
      injection h with h
      subst hk
      subst h
      exact List.mem_cons_self _ _
    · rw [if_neg hk] at h
      exact List.mem_cons_of_mem _ (ih h)

theorem getEntry_setEntry_self (w : Word) (v : Node) :
    ∀ cs : List (Word × Node), getEntry w (setEntry w v cs) = some v := by
  intro cs
  induction cs with
  | nil => simp [setEntry, getEntry]
  | cons kv rest ih =>
    obtain ⟨k, v'⟩ := kv
    rw [setEntry]
    by_cases hk : k = w
    · rw [if_pos hk, getEntry, if_pos rfl]
    · rw [if_neg hk, getEntry, if_neg hk]
      exact ih

theorem getEntry_setEntry_ne {q w : Word} (hqw : w ≠ q) (v : Node) :
    ∀ cs : List (Word × Node), getEntry q (setEntry w v cs) = getEntry q cs := by
  intro cs
  induction cs with
  | nil => simp [setEntry, getEntry, hqw]
  | cons kv rest ih =>
    obtain ⟨k, v'⟩ := kv
    rw [setEntry]
    by_cases hk : k = w
    · rw [if_pos hk, getEntry, getEntry, if_neg hqw, if_neg (hk ▸ hqw)]
    · rw [if_neg hk, getEntry, getEntry]
      by_cases hkq : k = q
      · rw [if_pos hkq, if_pos hkq]
      · rw [if_neg hkq, if_neg hkq]
        exact ih

theorem lev_self (w : Word) : lev w w = 0 := by
  rw [lev, levenshteinJS, if_pos rfl]

theorem lev_nil_left (w : Word) : lev [] w = w.length := by
  cases w with
  | nil => rw [lev, levenshteinJS, if_pos rfl]; rfl
  | cons c cs =>
    rw [lev, levenshteinJS]
    simp

/-- Walking a word path through the phrase tree by exact child lookup. -/
def followPath : Node → List Word → Option Node
  | n, [] => some n
  | n, w :: ws =>
    match getEntry w n.children with
    | none => none
    | some c => followPath c ws

@[simp] theorem followPath_nil (n : Node) : followPath n [] = some n := rfl

/-- An exact path to a leaf carrying the document, whose words agree with
the query words from position idx on, yields a zero-distance matching
path (every edge compares equal, at distance 0). -/
theorem followPath_pathTo (θ : Int) (hθ : 0 ≤ θ) (qws : List Word)
    (doc : Doc) :
    ∀ (ws : List Word) (node : Node) (idx : Nat) (n : Node),
      followPath node ws = some n →
      (∀ k, k < ws.length → qws.getD (idx + k) [] = ws.getD k []) →
      idx + ws.length ≤ qws.length →
      n.children.isEmpty = true → doc ∈ n.documents →
      PathTo θ qws doc node idx 0
  | [], node, idx, n => by
    intro h _ _ hleaf hdoc
    rw [followPath_nil] at h
    injection h with h
    subst h
    exact .leaf node idx hleaf hdoc
  | w :: ws, node, idx, n => by
    intro h hagree hlen hleaf hdoc
    rw [followPath] at h
    cases hg : getEntry w node.children with
    | none => rw [hg] at h; cases h
    | some c =>
      rw [hg] at h
      have hmem := getEntry_mem hg
      have hidx : idx < qws.length := by
        rw [List.length_cons] at hlen
        omega
      have hw : qws.getD idx [] = w := by
        have h0 := hagree 0 (by rw [List.length_cons]; omega)
        rw [Nat.add_zero] at h0
        exact h0
      have hrest : PathTo θ qws doc c (idx + 1) 0 := by
        refine followPath_pathTo θ hθ qws doc ws c (idx + 1) n h ?_ ?_ hleaf
          hdoc
        · intro k hk
          have := hagree (k + 1) (by rw [List.length_cons]; omega)
          rw [show idx + (k + 1) = idx + 1 + k by omega] at this
          exact this
        · rw [List.length_cons] at hlen
          omega
      have hstep := PathTo.step node idx w c 0 hmem hidx
        (by rw [hw, lev_self]; exact_mod_cast hθ) hrest
      rw [hw, lev_self] at hstep
      exact hstep

theorem mem_addDoc_self (d : Doc) (l : List Doc) : d ∈ addDoc d l := by
  rw [addDoc]
  by_cases h : d ∈ l
  · rw [if_pos h]; exact h
  · rw [if_neg h]; exact List.mem_append_right _ (List.mem_singleton.mpr rfl)

theorem mem_addDoc_of_mem {d' : Doc} (d : Doc) {l : List Doc}
    (h : d' ∈ l) : d' ∈ addDoc d l := by
  rw [addDoc]
  by_cases hm : d ∈ l
  · rw [if_pos hm]; exact h
  · rw [if_neg hm]; exact List.mem_append_left _ h

/-- The document is located at the end of the given word path. -/
def DocAt (t : Node) (p : List Word) (doc : Doc) : Prop :=
  ∃ n, followPath t p = some n ∧ doc ∈ n.documents

/-- A tree transformation that never loses a path or a document
membership. -/
def PreservesDocs (f : Node → Node) : Prop :=
  ∀ (t : Node) (p : List Word) (n : Node), followPath t p = some n →
    ∃ n', followPath (f t) p = some n'
      ∧ ∀ d, d ∈ n.documents → d ∈ n'.documents

theorem preservesDocs_docAt {f : Node → Node} (hf : PreservesDocs f)
    {t : Node} {p : List Word} {doc : Doc} (h : DocAt t p doc) :
    DocAt (f t) p doc := by
  obtain ⟨n, hn, hd⟩ := h
  obtain ⟨n', hn', hsub⟩ := hf t p n hn
  exact ⟨n', hn', hsub _ hd⟩

theorem followPath_mk_children (w : Word) (ds : List Doc) (c : Node)
    (q : Word) (qs : List Word) :
    followPath (Node.mk w ds c.children) (q :: qs) = followPath c (q :: qs) := by
  rw [followPath, followPath, Node.children_mk]

theorem preservesDocs_buildPhraseTree (doc : Doc) :
    ∀ ws : List Word, PreservesDocs (fun t => buildPhraseTree t doc ws)
  | [] => by
    intro t p n h
    exact ⟨n, h, fun _ hd => hd⟩
  | w :: rest => by
    intro t p n h
    simp only [buildPhraseTree]
    cases p with
    | nil =>
      rw [followPath_nil] at h
      injection h with h
      subst h
      exact ⟨_, followPath_nil _, fun d hd => hd⟩
    | cons q qs =>
      rw [followPath] at h
      cases hg : getEntry q t.children with
      | none => rw [hg] at h; cases h
      | some c =>
        rw [hg] at h
        by_cases hq : lowerWord w = q
        · subst hq
          rw [hg]
          dsimp only
          rw [followPath, Node.children_mk, getEntry_setEntry_self]
          have hc1 : ∀ n1, followPath c qs = some n1 →
              ∃ n2, followPath (Node.mk c.word (addDoc doc c.documents)
                c.children) qs = some n2
                ∧ ∀ d, d ∈ n1.documents → d ∈ n2.documents := by
            intro n1 hn1
            cases qs with
            | nil =>
              rw [followPath_nil] at hn1
              injection hn1 with hn1
              subst hn1
              exact ⟨_, followPath_nil _, fun d hd =>
                mem_addDoc_of_mem doc hd⟩
            | cons q' qs' =>
              rw [followPath_mk_children]
              exact ⟨n1, hn1, fun _ hd => hd⟩
          obtain ⟨n2, hn2, hsub2⟩ := hc1 n h
          obtain ⟨n', hn', hsub'⟩ := preservesDocs_buildPhraseTree doc rest
            _ qs n2 hn2
          exact ⟨n', hn', fun d hd => hsub' d (hsub2 d hd)⟩
        · rw [followPath, Node.children_mk, getEntry_setEntry_ne hq, hg]
          exact ⟨n, h, fun _ hd => hd⟩

theorem preservesDocs_foldl {β : Type} (step : Node → β → Node)
    (h : ∀ b, PreservesDocs (fun t => step t b)) :
    ∀ xs : List β, PreservesDocs (fun t => xs.foldl step t)
  | [] => by
    intro t p n hn
    exact ⟨n, hn, fun _ hd => hd⟩
  | x :: xs => by
    intro t p n hn
    obtain ⟨n1, hn1, hsub1⟩ := h x t p n hn
    obtain ⟨n', hn', hsub'⟩ := preservesDocs_foldl step h xs (step t x) p n1
      hn1
    exact ⟨n', hn', fun d hd => hsub' d (hsub1 d hd)⟩

theorem preservesDocs_addDocument_root (vars : Variations) (doc : Doc) :
    PreservesDocs (fun t => doc.phrases.foldl
      (fun root phraseStr =>
        (expandPhrase vars (tokenize phraseStr)).foldl
          (fun r p => buildPhraseTree r doc p) root) t) :=
  preservesDocs_foldl _ (fun P =>
    preservesDocs_foldl _ (fun p => preservesDocs_buildPhraseTree doc p)
      (expandPhrase vars (tokenize P))) doc.phrases

theorem addDocument_rootNode (s : Scorer) (doc : Doc) :
    (addDocument s doc).rootNode = doc.phrases.foldl
      (fun root phraseStr =>
        (expandPhrase s.variations (tokenize phraseStr)).foldl
          (fun r p => buildPhraseTree r doc p) root) s.rootNode := rfl

theorem buildPhraseTree_creates (doc : Doc) :
    ∀ (ws : List Word) (t : Node),
      ∃ n, followPath (buildPhraseTree t doc ws) (ws.map lowerWord) = some n
        ∧ (ws ≠ [] → doc ∈ n.documents)
  | [], t => ⟨t, followPath_nil t, fun h => absurd rfl h⟩
  | w :: rest, t => by
    simp only [buildPhraseTree]
    rw [List.map_cons, followPath, Node.children_mk, getEntry_setEntry_self]
    cases rest with
    | nil =>
      simp only [List.map_nil, followPath_nil]
      refine ⟨_, rfl, fun _ => ?_⟩
      rw [buildPhraseTree, Node.documents_mk]
      exact mem_addDoc_self doc _
    | cons w2 rest2 =>
      obtain ⟨n, hn, hd⟩ := buildPhraseTree_creates doc (w2 :: rest2) _
      exact ⟨n, hn, fun _ => hd (by simp)⟩

/-- The original phrase is always among its expansions, at the front. -/
theorem mem_expandPhrase_self (vars : Variations) (phrase : List Word) :
    phrase ∈ expandPhrase vars phrase := by
  have key : ∀ (l : Variations) (acc : List (List Word)),
      phrase ∈ acc → phrase ∈ l.foldl
        (fun phrases tv =>
          match phrase.findIdx? (fun w => w = tv.1) with
          | some index =>
            phrases ++ tv.2.map (fun v => spliceVariation phrase index v)
          | none => phrases) acc := by
    intro l
    induction l with
    | nil => intro acc h; exact h
    | cons tv rest ih =>
      intro acc h
      rw [List.foldl_cons]
      refine ih _ ?_
      cases hf : phrase.findIdx? (fun w => w = tv.1) with
      | none => simp only [hf]; exact h
      | some i => simp only [hf]; exact List.mem_append_left _ h
  rw [expandPhrase]
  exact key vars [phrase] (List.mem_singleton.mpr rfl)

theorem splitWSAux_ne_nil : ∀ (cs : Word) (st : Option Word),
    splitWSAux cs st ≠ []
  | [], some _ => by rw [splitWSAux]; simp
  | [], none => by rw [splitWSAux]; simp
  | c :: rest, some acc => by
    rw [splitWSAux]
    by_cases h : isWs c = true
    · rw [if_pos h]; simp
    · rw [if_neg h]
      exact splitWSAux_ne_nil rest (some (acc ++ [c]))
  | c :: rest, none => by
    rw [splitWSAux]
    by_cases h : isWs c = true
    · rw [if_pos h]
      exact splitWSAux_ne_nil rest none
    · rw [if_neg h]
      exact splitWSAux_ne_nil rest (some [c])

theorem tokenize_ne_nil (s : Word) : tokenize s ≠ [] := by
  rw [tokenize, jsSplitWS]
  intro h
  exact splitWSAux_ne_nil (trimWS s) (some []) (List.map_eq_nil_iff.mp h)

/-- Adding a document puts the document at the end of the exact token path
of each of its phrases. -/
theorem addDocument_docAt (s : Scorer) (doc : Doc) (P : Word)
    (hP : P ∈ doc.phrases) :
    DocAt (addDocument s doc).rootNode (tokenize P) doc := by
  rw [addDocument_rootNode]
  have inner : ∀ t, DocAt ((expandPhrase s.variations (tokenize P)).foldl
      (fun r p => buildPhraseTree r doc p) t) (tokenize P) doc := by
    intro t
    have hself := mem_expandPhrase_self s.variations (tokenize P)
    have establish : ∀ r, DocAt (buildPhraseTree r doc (tokenize P))
        (tokenize P) doc := by
      intro r
      obtain ⟨n, hn, hd⟩ := buildPhraseTree_creates doc (tokenize P) r
      rw [tokenize_map_lowerWord] at hn
      exact ⟨n, hn, hd (tokenize_ne_nil P)⟩
    have key : ∀ (xs : List (List Word)) (r : Node),
        tokenize P ∈ xs →
        DocAt (xs.foldl (fun r p => buildPhraseTree r doc p) r)
          (tokenize P) doc := by
      intro xs
      induction xs with
      | nil => intro r h; exact absurd h (List.not_mem_nil _)
      | cons x rest ih =>
        intro r h
        rw [List.foldl_cons]
        rcases List.mem_cons.mp h with heq | htail
        · subst heq
          exact preservesDocs_docAt
            (preservesDocs_foldl _
              (fun p => preservesDocs_buildPhraseTree doc p) rest)
            (establish r)
        · exact ih _ htail
    exact key _ t hself
  have key2 : ∀ (ps : List Word) (t : Node), P ∈ ps →
      DocAt (ps.foldl (fun root phraseStr =>
        (expandPhrase s.variations (tokenize phraseStr)).foldl
          (fun r p => buildPhraseTree r doc p) root) t) (tokenize P) doc := by
    intro ps
    induction ps with
    | nil => intro t h; exact absurd h (List.not_mem_nil _)
    | cons x rest ih =>
      intro t h
      rw [List.foldl_cons]
      rcases List.mem_cons.mp h with heq | htail
      · subst heq
        refine preservesDocs_docAt (preservesDocs_foldl _ ?_ rest) (inner t)
        intro P'
        exact preservesDocs_foldl _
          (fun p => preservesDocs_buildPhraseTree doc p) _
      · exact ih _ htail
  exact key2 _ s.rootNode hP

theorem addDocument_preserves_docAt (s : Scorer) (doc d : Doc)
    (p : List Word) (h : DocAt s.rootNode p d) :
    DocAt (addDocument s doc).rootNode p d := by
  rw [addDocument_rootNode]
  exact preservesDocs_docAt (preservesDocs_addDocument_root s.variations doc)
    h

theorem addDocuments_preserves_docAt :
    ∀ (ds : List Doc) (s : Scorer) (d : Doc) (p : List Word),
      DocAt s.rootNode p d → DocAt (addDocuments s ds).rootNode p d
  | [], _, _, _ => fun h => h
  | x :: ds, s, d, p => fun h =>
    addDocuments_preserves_docAt ds (addDocument s x) d p
      (addDocument_preserves_docAt s x d p h)

/-- After any sequence of addDocument calls containing doc, each phrase of
doc has its exact token path present in the tree with doc attached at the
end. -/
theorem addDocuments_docAt :
    ∀ (ds : List Doc) (s : Scorer) (doc : Doc) (P : Word),
      doc ∈ ds → P ∈ doc.phrases →
      DocAt (addDocuments s ds).rootNode (tokenize P) doc
  | [], _, _, _ => fun h _ => absurd h (List.not_mem_nil _)
  | x :: ds, s, doc, P => fun hmem hP => by
    rw [addDocuments, List.foldl_cons]
    rcases List.mem_cons.mp hmem with heq | htail
    · subst heq
      exact addDocuments_preserves_docAt ds _ doc (tokenize P)
        (addDocument_docAt s doc P hP)
    · exact addDocuments_docAt ds _ doc P htail hP

theorem addDocuments_mem_documents :
    ∀ (ds : List Doc) (s : Scorer) (doc : Doc), doc ∈ ds →
      doc ∈ (addDocuments s ds).documents := by
  intro ds
  induction ds with
  | nil => intro s doc h; exact absurd h (List.not_mem_nil _)
  | cons x rest ih =>
    intro s doc h
    rw [addDocuments, List.foldl_cons]
    rcases List.mem_cons.mp h with heq | htail
    · subst heq
      have base : doc ∈ (addDocument s doc).documents := mem_addDoc_self _ _
      have pres : ∀ (rs : List Doc) (s' : Scorer),
          doc ∈ s'.documents → doc ∈ (addDocuments s' rs).documents := by
        intro rs
        induction rs with
        | nil => intro s' h'; exact h'
        | cons y rest' ih' =>
          intro s' h'
          rw [addDocuments, List.foldl_cons]
          exact ih' _ (mem_addDoc_of_mem y h')
      exact pres rest _ base
    · exact ih _ doc htail

theorem addDocuments_distanceThreshold :
    ∀ (ds : List Doc) (s : Scorer),
      (addDocuments s ds).distanceThreshold = s.distanceThreshold
  | [], _ => rfl
  | x :: ds, s => by
    rw [addDocuments, List.foldl_cons]
    exact addDocuments_distanceThreshold ds (addDocument s x)

/-- One entry of the result array of score. -/
structure ScoreEntry where
  document : Doc
  score : Option Nat
deriving DecidableEq

/-- The sort comparator of score (JS line 119): ascending by score, the
Infinity sentinel (none) compares above every finite score and ties with
itself, matching the numeric comparator a.score - b.score on the values
the scorer produces. -/
def scoreLE (a b : ScoreEntry) : Bool :=
  match a.score, b.score with
  | some x, some y => decide (x ≤ y)
  | some _, none => true
  | none, some _ => false
  | none, none => true

/-- Embedding of QueryScorer.score (JS lines 105-121). -/
def score (s : Scorer) (queryString : Word) : List ScoreEntry :=
  let qws := tokenize queryString
  let m := traverse s.distanceThreshold qws s.rootNode (fun _ => none) 0 0
  let results := s.documents.map (fun doc => ScoreEntry.mk doc (m doc))
  results.mergeSort scoreLE

/-- Unfolding of score: the sorted list of documents paired with their
traversal results. -/
theorem score_eval (s : Scorer) (q : Word) :
    score s q = (s.documents.map (fun doc => ScoreEntry.mk doc
      (traverse s.distanceThreshold (tokenize q) s.rootNode
        (fun _ => none) 0 0 doc))).mergeSort scoreLE := rfl

theorem mem_score (s : Scorer) (q : Word) {D : Doc}
    (hD : D ∈ s.documents) :
    ScoreEntry.mk D (traverse s.distanceThreshold (tokenize q) s.rootNode
      (fun _ => none) 0 0 D) ∈ score s q := by
  rw [score_eval, List.mem_mergeSort]
  exact List.mem_map_of_mem _ hD

theorem init_distanceThreshold (θ : Int) (vars : Variations) :
    (init θ vars).distanceThreshold = θ := rfl

/-- Common core of C1 and C2: if the token path of a registered phrase
ends at a leaf of the final tree, then any query whose tokens extend the
phrase tokens scores the owning document at exactly 0. -/
theorem scores_zero_of_leaf (θ : Int) (vars : Variations) (ds : List Doc)
    (D : Doc) (P Q : Word) (extra : List Word) (n : Node)
    (hθ : 0 ≤ θ) (hD : D ∈ ds) (hP : P ∈ D.phrases)
    (hq : tokenize Q = tokenize P ++ extra)
    (hpath : followPath (addDocuments (init θ vars) ds).rootNode
      (tokenize P) = some n)
    (hleaf : n.children.isEmpty = true) :
    ∃ e, e ∈ score (addDocuments (init θ vars) ds) Q
      ∧ e.document = D ∧ e.score = some 0 := by
  set s := addDocuments (init θ vars) ds with hs
  obtain ⟨n0, hn0, hd0⟩ := addDocuments_docAt ds (init θ vars) D P hD hP
  rw [hpath] at hn0
  injection hn0 with hn0
  subst hn0
  have hpathTo : PathTo θ (tokenize Q) D s.rootNode 0 0 := by
    refine followPath_pathTo θ hθ (tokenize Q) D (tokenize P) s.rootNode 0
      n hpath ?_ ?_ hleaf hd0
    · intro k hk
      rw [Nat.zero_add, hq]
      exact List.getD_append _ _ _ _ hk
    · rw [hq, List.length_append]
      omega
  have hθs : s.distanceThreshold = θ := by
    rw [hs, addDocuments_distanceThreshold, init_distanceThreshold]
  obtain ⟨v, hv, hvle⟩ := traverse_complete θ (tokenize Q) hpathTo
    (fun _ => none) 0
  have hv0 : v = 0 := by omega
  subst hv0
  have hmem := mem_score s Q (addDocuments_mem_documents ds (init θ vars) D
    hD)
  rw [hθs, hv] at hmem
  exact ⟨_, hmem, rfl, rfl⟩

/-- A document with two phrases, one a strict prefix of the other: the
shorter phrase is shadowed in the phrase tree. -/
def docAB : Doc := Doc.mk "A" [['a'], ['a', ' ', 'b']]

/-- The scorer holding docAB at the default threshold. -/
def scorerAB : Scorer := addDocument (init 1 []) docAB

theorem scorerAB_root : scorerAB.rootNode =
    Node.mk [] [] [(['a'], Node.mk ['a'] [docAB]
      [(['b'], Node.mk ['b'] [docAB] [])])] := rfl

/-- C1 counterexample: the phrase "a" is registered verbatim for document
A, but score on the exact phrase string "a" returns A with the sentinel,
not 0: the phrase "a b" extends its path, so the node of "a" is not a leaf
and the match is never recorded. -/
theorem C1_counterexample :
    ['a'] ∈ docAB.phrases
    ∧ score scorerAB ['a'] = [ScoreEntry.mk docAB none]
    ∧ ¬ ∃ e, e ∈ score scorerAB ['a']
        ∧ e.document = docAB ∧ e.score = some 0 := by
  have ht : traverse scorerAB.distanceThreshold (tokenize ['a'])
      scorerAB.rootNode (fun _ => none) 0 0 docAB = none := by
    show traverse 1 [['a']] (Node.mk [] [] [(['a'], Node.mk ['a'] [docAB]
      [(['b'], Node.mk ['b'] [docAB] [])])]) (fun _ => none) 0 0 docAB
      = none
    simp [traverse.eq_def, traverseList.eq_def, lev, levenshteinJS,
      getEntry, List.isEmpty]
  have hsc : score scorerAB ['a'] = [ScoreEntry.mk docAB none] := by
    rw [score_eval]
    show ([docAB].map _).mergeSort scoreLE = _
    rw [List.map_singleton, ht, List.mergeSort_singleton]
  refine ⟨by simp [docAB], hsc, ?_⟩
  rintro ⟨e, he, -, hscore⟩
  rw [hsc, List.mem_singleton] at he
  subst he
  simp at hscore

/-- C1 amended: if additionally the token path of the registered phrase
ends at a leaf of the final tree (no other expanded phrase strictly
extends it) and the threshold is non-negative, score on the phrase string
does return the owning document with score 0. -/
theorem C1_exact_phrase_scores_zero (θ : Int) (vars : Variations)
    (ds : List Doc) (D : Doc) (P : Word) (n : Node)
    (hθ : 0 ≤ θ) (hD : D ∈ ds) (hP : P ∈ D.phrases)
    (hpath : followPath (addDocuments (init θ vars) ds).rootNode
      (tokenize P) = some n)
    (hleaf : n.children.isEmpty = true) :
    ∃ e, e ∈ score (addDocuments (init θ vars) ds) P
      ∧ e.document = D ∧ e.score = some 0 :=
  scores_zero_of_leaf θ vars ds D P P [] n hθ hD hP
    (by rw [List.append_nil]) hpath hleaf

/-- A document with the single phrase "a", whose path ends at a leaf. -/
def docA1 : Doc := Doc.mk "B" [['a']]

theorem C1_exact_phrase_scores_zero_witness :
    ∃ e, e ∈ score (addDocuments (init 1 []) [docA1]) ['a']
      ∧ e.document = docA1 ∧ e.score = some 0 :=
  C1_exact_phrase_scores_zero 1 [] [docA1] docA1 ['a']
    (Node.mk ['a'] [docA1] []) (by decide) (by simp)
    (by simp [docA1]) rfl rfl

/-- C2 counterexample: the query "a" exactly matches the registered phrase
"a" of document A, yet appending the extra word "x" changes A's recorded
distance from the sentinel to the finite value 1: with the trailing word
the traversal can reach the leaf of "a b" within the threshold, while the
exact query dead-ends at the non-leaf node of "a". -/
theorem C2_counterexample :
    ['a'] ∈ docAB.phrases
    ∧ score scorerAB ['a'] = [ScoreEntry.mk docAB none]
    ∧ score scorerAB ['a', ' ', 'x'] = [ScoreEntry.mk docAB (some 1)] := by
  have ht : traverse scorerAB.distanceThreshold (tokenize ['a'])
      scorerAB.rootNode (fun _ => none) 0 0 docAB = none := by
    show traverse 1 [['a']] (Node.mk [] [] [(['a'], Node.mk ['a'] [docAB]
      [(['b'], Node.mk ['b'] [docAB] [])])]) (fun _ => none) 0 0 docAB
      = none
    simp [traverse.eq_def, traverseList.eq_def, lev, levenshteinJS,
      getEntry, List.isEmpty]
  have ht2 : traverse scorerAB.distanceThreshold
      (tokenize ['a', ' ', 'x']) scorerAB.rootNode (fun _ => none) 0 0
      docAB = some 1 := by
    have la : lev ['a'] ['a'] = 0 := rfl
    have lx : lev ['x'] ['b'] = 1 := rfl
    show traverse 1 [['a'], ['x']] (Node.mk [] []
      [(['a'], Node.mk ['a'] [docAB] [(['b'], Node.mk ['b'] [docAB] [])])])
      (fun _ => none) 0 0 docAB = some 1
    simp [traverse.eq_def, traverseList.eq_def, la, lx, List.isEmpty]
  refine ⟨by simp [docAB], ?_, ?_⟩
  · rw [score_eval]
    show ([docAB].map _).mergeSort scoreLE = _
    rw [List.map_singleton, ht, List.mergeSort_singleton]
  · rw [score_eval]
    show ([docAB].map _).mergeSort scoreLE = _
    rw [List.map_singleton, ht2, List.mergeSort_singleton]

/-- C2 amended: when the exactly matched phrase ends at a leaf of the tree
(no registered expanded phrase strictly extends it) and the threshold is
non-negative, appending trailing words to the exact query leaves the
owning document's recorded distance unchanged: both queries record
distance 0. -/
theorem C2_trailing_words_preserve_exact_match (θ : Int)
    (vars : Variations) (ds : List Doc) (D : Doc) (P Q : Word)
    (extra : List Word) (n : Node)
    (hθ : 0 ≤ θ) (hD : D ∈ ds) (hP : P ∈ D.phrases)
    (hq : tokenize Q = tokenize P ++ extra)
    (hpath : followPath (addDocuments (init θ vars) ds).rootNode
      (tokenize P) = some n)
    (hleaf : n.children.isEmpty = true) :
    (∃ e, e ∈ score (addDocuments (init θ vars) ds) P
      ∧ e.document = D ∧ e.score = some 0)
    ∧ ∃ e, e ∈ score (addDocuments (init θ vars) ds) Q
      ∧ e.document = D ∧ e.score = some 0 :=
  ⟨scores_zero_of_leaf θ vars ds D P P [] n hθ hD hP
      (by rw [List.append_nil]) hpath hleaf,
    scores_zero_of_leaf θ vars ds D P Q extra n hθ hD hP hq hpath hleaf⟩

theorem C2_trailing_words_preserve_exact_match_witness :
    (∃ e, e ∈ score (addDocuments (init 1 []) [docA1]) ['a']
      ∧ e.document = docA1 ∧ e.score = some 0)
    ∧ ∃ e, e ∈ score (addDocuments (init 1 []) [docA1]) ['a', ' ', 'z']
      ∧ e.document = docA1 ∧ e.score = some 0 :=
  C2_trailing_words_preserve_exact_match 1 [] [docA1] docA1 ['a']
    ['a', ' ', 'z'] [['z']] (Node.mk ['a'] [docA1] []) (by decide)
    (by simp) (by simp [docA1]) rfl rfl rfl

/-- The firefox document of the variation scenario. -/
def docFx : Doc := Doc.mk "D" ["firefox update".data]

/-- Scorer with the variation firefox mapped to fire fox. -/
def scorerFx : Scorer :=
  addDocument (init 1 [("firefox".data, ["fire fox".data])]) docFx

/-- C6: the original phrase is always inserted alongside its variants (it
heads the expansion list), and in the concrete scenario with variation
firefox mapped to fire fox and registered phrase firefox update, both the
original query and the variant query return the owning document with the
finite score 0. -/
theorem C6_variation_expansion :
    (∀ (vars : Variations) (phrase : List Word),
      phrase ∈ expandPhrase vars phrase)
    ∧ score scorerFx "firefox update".data
        = [ScoreEntry.mk docFx (some 0)]
    ∧ score scorerFx "fire fox update".data
        = [ScoreEntry.mk docFx (some 0)] := by
  have l1 : lev "firefox".data "firefox".data = 0 := rfl
  have l2 : lev "firefox".data "fire".data = 3 := rfl
  have l3 : lev "update".data "update".data = 0 := rfl
  have l4 : lev "fire".data "firefox".data = 3 := rfl
  have l5 : lev "fire".data "fire".data = 0 := rfl
  have l6 : lev "fox".data "fox".data = 0 := rfl
  have ht1 : traverse scorerFx.distanceThreshold
      (tokenize "firefox update".data) scorerFx.rootNode (fun _ => none)
      0 0 docFx = some 0 := by
    show traverse 1 ["firefox".data, "update".data]
      (Node.mk [] [] [("firefox".data, Node.mk "firefox".data [docFx]
        [("update".data, Node.mk "update".data [docFx] [])]),
        ("fire".data, Node.mk "fire".data [docFx]
          [("fox".data, Node.mk "fox".data [docFx]
            [("update".data, Node.mk "update".data [docFx] [])])])])
      (fun _ => none) 0 0 docFx = some 0
    simp [traverse.eq_def, traverseList.eq_def, l1, l2, l3, List.isEmpty]
  have ht2 : traverse scorerFx.distanceThreshold
      (tokenize "fire fox update".data) scorerFx.rootNode (fun _ => none)
      0 0 docFx = some 0 := by
    show traverse 1 ["fire".data, "fox".data, "update".data]
      (Node.mk [] [] [("firefox".data, Node.mk "firefox".data [docFx]
        [("update".data, Node.mk "update".data [docFx] [])]),
        ("fire".data, Node.mk "fire".data [docFx]
          [("fox".data, Node.mk "fox".data [docFx]
            [("update".data, Node.mk "update".data [docFx] [])])])])
      (fun _ => none) 0 0 docFx = some 0
    simp [traverse.eq_def, traverseList.eq_def, l3, l4, l5, l6,
      List.isEmpty]
  refine ⟨mem_expandPhrase_self, ?_, ?_⟩
  · rw [score_eval]
    show ([docFx].map _).mergeSort scoreLE = _
    rw [List.map_singleton, ht1, List.mergeSort_singleton]
  · rw [score_eval]
    show ([docFx].map _).mergeSort scoreLE = _
    rw [List.map_singleton, ht2, List.mergeSort_singleton]

theorem buildPhraseTree_documents (t : Node) (doc : Doc) :
    ∀ ws : List Word, (buildPhraseTree t doc ws).documents = t.documents
  | [] => rfl
  | w :: rest => by simp only [buildPhraseTree, Node.documents_mk]

theorem foldl_root_documents {β : Type} (step : Node → β → Node)
    (h : ∀ t b, (step t b).documents = t.documents) :
    ∀ (xs : List β) (t : Node), (xs.foldl step t).documents = t.documents
  | [], _ => rfl
  | x :: xs, t => by
    rw [List.foldl_cons, foldl_root_documents step h xs (step t x), h]

theorem addDocument_root_documents (s : Scorer) (doc : Doc) :
    (addDocument s doc).rootNode.documents = s.rootNode.documents := by
  rw [addDocument_rootNode]
  exact foldl_root_documents _
    (fun t P => foldl_root_documents _
      (fun t' p => buildPhraseTree_documents t' doc p) _ t) _ _

theorem addDocuments_root_documents :
    ∀ (ds : List Doc) (s : Scorer),
      (addDocuments s ds).rootNode.documents = s.rootNode.documents
  | [], _ => rfl
  | x :: ds, s =>
    calc (addDocuments s (x :: ds)).rootNode.documents
        = (addDocuments (addDocument s x) ds).rootNode.documents := rfl
      _ = (addDocument s x).rootNode.documents :=
          addDocuments_root_documents ds (addDocument s x)
      _ = s.rootNode.documents := addDocument_root_documents s x

theorem init_root_documents (θ : Int) (vars : Variations) :
    (init θ vars).rootNode.documents = [] := rfl

/-- C7 counterexample: constructing a QueryScorer with the negative
distanceThreshold -1 does not fail: the constructor is a total function
that stores the threshold as given (there is no InvalidConfiguration check
anywhere in the code), and the resulting scorer accepts documents and
answers queries (with -1 every comparison is pruned, so every document
scores the sentinel). -/
theorem C7_counterexample :
    init (-1) [] = Scorer.mk (-1) [] [] (Node.mk [] [] [])
    ∧ (init (-1) []).distanceThreshold = -1
    ∧ score (addDocument (init (-1) []) docA1) ['a']
        = [ScoreEntry.mk docA1 none] := by
  refine ⟨rfl, rfl, ?_⟩
  have ht : traverse (addDocument (init (-1) []) docA1).distanceThreshold
      (tokenize ['a']) (addDocument (init (-1) []) docA1).rootNode
      (fun _ => none) 0 0 docA1 = none := by
    have la : lev ['a'] ['a'] = 0 := rfl
    show traverse (-1) [['a']]
      (Node.mk [] [] [(['a'], Node.mk ['a'] [docA1] [])])
      (fun _ => none) 0 0 docA1 = none
    simp [traverse.eq_def, traverseList.eq_def, la, List.isEmpty]
  rw [score_eval]
  show ([docA1].map _).mergeSort scoreLE = _
  rw [List.map_singleton, ht, List.mergeSort_singleton]

/-- C7 amended: construction never fails; any distanceThreshold, negative
values included, is stored as given, and a scorer built with a negative
threshold returns the sentinel score for every document on every query
(no error is ever raised). -/
theorem C7_negative_threshold_construction (θ : Int) (vars : Variations)
    (ds : List Doc) (q : Word) (hθ : θ < 0) :
    (init θ vars).distanceThreshold = θ
    ∧ ∀ e, e ∈ score (addDocuments (init θ vars) ds) q →
        e.score = none := by
  refine ⟨rfl, ?_⟩
  intro e he
  set s := addDocuments (init θ vars) ds with hs
  rw [score_eval, List.mem_mergeSort] at he
  obtain ⟨D, hD, rfl⟩ := List.mem_map.mp he
  show traverse s.distanceThreshold (tokenize q) s.rootNode
    (fun _ => none) 0 0 D = none
  cases hv : traverse s.distanceThreshold (tokenize q) s.rootNode
      (fun _ => none) 0 0 D with
  | none => rfl
  | some v =>
    exfalso
    rcases traverse_sound s.distanceThreshold (tokenize q) s.rootNode
        (fun _ => none) 0 0 D v (Nat.zero_le _) hv with hm | ⟨d, hpath, -⟩
    · cases hm
    · have hθs : s.distanceThreshold = θ := by
        rw [hs, addDocuments_distanceThreshold, init_distanceThreshold]
      cases hpath with
      | leaf _ _ hleaf hdoc =>
        rw [hs, addDocuments_root_documents, init_root_documents] at hdoc
        exact absurd hdoc (List.not_mem_nil _)
      | step _ _ w child d' hmem hidx hdist hrest =>
        rw [hθs] at hdist
        have : (0 : Int) ≤ ((lev ((tokenize q).getD 0 []) w : Nat) : Int) :=
          Int.natCast_nonneg _
        omega

theorem C7_negative_threshold_construction_witness :
    (init (-1) []).distanceThreshold = -1
    ∧ ∀ e, e ∈ score (addDocuments (init (-1) []) [docA1]) ['a'] →
        e.score = none :=
  C7_negative_threshold_construction (-1) [] [docA1] ['a'] (by decide)

theorem tokenize_of_trim_nil {q : Word} (hq : trimWS q = []) :
    tokenize q = [[]] := by
  rw [tokenize, jsSplitWS, hq]
  rfl

/-- C4 counterexample: on the empty query, a registered document whose
phrase is the single one-character word "a" receives the finite score 1,
not the infinite sentinel: the empty query tokenizes to the single empty
word, whose edit distance 1 to "a" is within the default threshold. -/
theorem C4_counterexample :
    trimWS [] = []
    ∧ score (addDocument (init 1 []) docA1) []
        = [ScoreEntry.mk docA1 (some 1)] := by
  refine ⟨rfl, ?_⟩
  have ht : traverse (addDocument (init 1 []) docA1).distanceThreshold
      (tokenize []) (addDocument (init 1 []) docA1).rootNode
      (fun _ => none) 0 0 docA1 = some 1 := by
    have la : lev [] ['a'] = 1 := rfl
    show traverse 1 [[]]
      (Node.mk [] [] [(['a'], Node.mk ['a'] [docA1] [])])
      (fun _ => none) 0 0 docA1 = some 1
    simp [traverse.eq_def, traverseList.eq_def, la, List.isEmpty]
  rw [score_eval]
  show ([docA1].map _).mergeSort scoreLE = _
  rw [List.map_singleton, ht, List.mergeSort_singleton]

/-- C4 amended: score on an empty or all-whitespace query does not fail
and returns exactly one entry per registered document, but the query is
treated as the single empty word rather than as no words: a document
receives the sentinel if and only if it has no single-word phrase whose
word is a leaf child of the root within the distance threshold of the
empty word; such a document receives that finite word length as its
score. -/
theorem C4_empty_query_entries (θ : Int) (vars : Variations)
    (ds : List Doc) (q : Word) (hq : trimWS q = []) :
    (score (addDocuments (init θ vars) ds) q).length
      = (addDocuments (init θ vars) ds).documents.length
    ∧ (∀ D, D ∈ (addDocuments (init θ vars) ds).documents →
        ∃ e, e ∈ score (addDocuments (init θ vars) ds) q
          ∧ e.document = D)
    ∧ ∀ e, e ∈ score (addDocuments (init θ vars) ds) q →
        (e.score = none ↔
          ¬ ∃ w c, (w, c) ∈ (addDocuments (init θ vars) ds).rootNode.children
            ∧ c.children.isEmpty = true ∧ e.document ∈ c.documents
            ∧ ((w.length : Nat) : Int) ≤ θ) := by
  set s := addDocuments (init θ vars) ds with hs
  have hθs : s.distanceThreshold = θ := by
    rw [hs, addDocuments_distanceThreshold, init_distanceThreshold]
  have htok : tokenize q = [[]] := tokenize_of_trim_nil hq
  refine ⟨?_, ?_, ?_⟩
  · rw [score_eval, List.length_mergeSort, List.length_map]
  · intro D hD
    exact ⟨_, mem_score s q hD, rfl⟩
  · intro e he
    rw [score_eval, List.mem_mergeSort] at he
    obtain ⟨D, hD, rfl⟩ := List.mem_map.mp he
    show traverse s.distanceThreshold (tokenize q) s.rootNode
      (fun _ => none) 0 0 D = none ↔ _
    constructor
    · intro hnone hex
      obtain ⟨w, c, hmem, hcleaf, hcdoc, hwlen⟩ := hex
      have hpath : PathTo s.distanceThreshold (tokenize q) D s.rootNode 0
          (lev ((tokenize q).getD 0 []) w + 0) := by
        refine PathTo.step _ _ w c 0 hmem ?_ ?_ (.leaf c 1 hcleaf hcdoc)
        · rw [htok]; simp
        · rw [htok]
          show ((lev [] w : Nat) : Int) ≤ _
          rw [lev_nil_left, hθs]
          exact hwlen
      obtain ⟨v, hv, -⟩ := traverse_complete s.distanceThreshold
        (tokenize q) hpath (fun _ => none) 0
      rw [hnone] at hv
      cases hv
    · intro hnone
      cases hv : traverse s.distanceThreshold (tokenize q) s.rootNode
          (fun _ => none) 0 0 D with
      | none => rfl
      | some v =>
        exfalso
        rcases traverse_sound s.distanceThreshold (tokenize q) s.rootNode
            (fun _ => none) 0 0 D v (Nat.zero_le _) hv with hm | ⟨d, hpath, -⟩
        · cases hm
        · refine hnone ?_
          cases hpath with
          | leaf _ _ hleaf hdoc =>
            rw [hs, addDocuments_root_documents, init_root_documents]
              at hdoc
            exact absurd hdoc (List.not_mem_nil _)
          | step _ _ w child d' hmem hidx hdist hrest =>
            refine ⟨w, child, hmem, ?_, ?_, ?_⟩
            · cases hrest with
              | leaf _ _ hleaf2 _ => exact hleaf2
              | step _ _ _ _ _ _ hidx2 _ _ =>
                rw [htok] at hidx2
                simp at hidx2
            · cases hrest with
              | leaf _ _ _ hdoc2 => exact hdoc2
              | step _ _ _ _ _ _ hidx2 _ _ =>
                rw [htok] at hidx2
                simp at hidx2
            · rw [htok, List.getD_cons_zero, lev_nil_left, hθs] at hdist
              exact hdist

theorem C4_empty_query_entries_witness :
    (score (addDocuments (init 1 []) [docA1]) []).length
      = (addDocuments (init 1 []) [docA1]).documents.length
    ∧ (∀ D, D ∈ (addDocuments (init 1 []) [docA1]).documents →
        ∃ e, e ∈ score (addDocuments (init 1 []) [docA1]) []
          ∧ e.document = D)
    ∧ ∀ e, e ∈ score (addDocuments (init 1 []) [docA1]) [] →
        (e.score = none ↔
          ¬ ∃ w c, (w, c) ∈ (addDocuments (init 1 []) [docA1]).rootNode.children
            ∧ c.children.isEmpty = true ∧ e.document ∈ c.documents
            ∧ ((w.length : Nat) : Int) ≤ 1) :=
  C4_empty_query_entries 1 [] [docA1] [] rfl

/-- Interpretation of a recorded score, with the sentinel as the top
element (the JS Infinity). -/
def toScoreVal : Option Nat → WithTop Nat
  | none => ⊤
  | some n => (n : WithTop Nat)

theorem scoreLE_trans (a b c : ScoreEntry) (h1 : scoreLE a b = true)
    (h2 : scoreLE b c = true) : scoreLE a c = true := by
  obtain ⟨da, sa⟩ := a
  obtain ⟨db, sb⟩ := b
  obtain ⟨dc, sc⟩ := c
  cases sa <;> cases sb <;> cases sc <;> simp_all [scoreLE]
  omega

theorem scoreLE_total (a b : ScoreEntry) :
    (scoreLE a b || scoreLE b a) = true := by
  obtain ⟨da, sa⟩ := a
  obtain ⟨db, sb⟩ := b
  cases sa <;> cases sb <;> simp [scoreLE]
  omega

/-- C8: every score in the result is non-negative (finite scores are
natural numbers and the sentinel is the top element); a document with no
matching path within the distance threshold receives the sentinel; and in
the sorted output a sentinel-scored entry never precedes a finitely
scored one. -/
theorem C8_nonneg_sentinel_sorted (s : Scorer) (q : Word) :
    (∀ e, e ∈ score s q → 0 ≤ toScoreVal e.score)
    ∧ (∀ D, D ∈ s.documents →
        (¬ ∃ d, PathTo s.distanceThreshold (tokenize q) D s.rootNode 0 d) →
        ∃ e, e ∈ score s q ∧ e.document = D ∧ e.score = none)
    ∧ (score s q).Pairwise
        (fun a b => a.score = none → b.score = none) := by
  refine ⟨?_, ?_, ?_⟩
  · intro e _
    cases h : e.score with
    | none => rw [toScoreVal]; exact le_top
    | some n => rw [toScoreVal]; exact zero_le _
  · intro D hD hnopath
    refine ⟨_, mem_score s q hD, rfl, ?_⟩
    show traverse s.distanceThreshold (tokenize q) s.rootNode
      (fun _ => none) 0 0 D = none
    cases hv : traverse s.distanceThreshold (tokenize q) s.rootNode
        (fun _ => none) 0 0 D with
    | none => rfl
    | some v =>
      exfalso
      rcases traverse_sound s.distanceThreshold (tokenize q) s.rootNode
          (fun _ => none) 0 0 D v (Nat.zero_le _) hv with hm | ⟨d, hpath, -⟩
      · cases hm
      · exact hnopath ⟨d, hpath⟩
  · rw [score_eval]
    refine List.Pairwise.imp ?_
      (List.sorted_mergeSort scoreLE_trans scoreLE_total _)
    intro a b hle ha
    cases hb : b.score with
    | none => rfl
    | some x =>
      exfalso
      obtain ⟨da, sa⟩ := a
      obtain ⟨db, sb⟩ := b
      simp only at ha hb
      subst ha
      subst hb
      simp [scoreLE] at hle

theorem C8_nonneg_sentinel_sorted_witness :
    ∃ e, e ∈ score (addDocument (init (-1) []) docA1) ['a']
      ∧ e.document = docA1 ∧ e.score = none := by
  refine (C8_nonneg_sentinel_sorted (addDocument (init (-1) []) docA1)
    ['a']).2.1 docA1 (by rw [show (addDocument (init (-1) []) docA1).documents
      = [docA1] from rfl]; exact List.mem_singleton.mpr rfl) ?_
  rintro ⟨d, hp⟩
  cases hp with
  | leaf _ _ hleaf hdoc =>
    rw [show (addDocument (init (-1) []) docA1).rootNode.documents = []
      from rfl] at hdoc
    exact absurd hdoc (List.not_mem_nil _)
  | step _ _ w child d' hmem hidx hdist hrest =>
    rw [show (addDocument (init (-1) []) docA1).distanceThreshold = -1
      from rfl] at hdist
    have h0 : (0 : Int) ≤
        ((lev ((tokenize ['a']).getD 0 []) w : Nat) : Int) :=
      Int.natCast_nonneg _
    omega

/-- The JS _buildPhraseTree with its original (phrase, wordIndex) calling
convention and an explicit recursion budget: none means the budget ran out
before the end of the phrase was reached. -/
def buildPhraseTreeF (fuel : Nat) (node : Node) (doc : Doc)
    (phrase : List Word) (wordIndex : Nat) : Option Node :=
  match fuel with
  | 0 => none
  | fuel + 1 =>
    if phrase.length = wordIndex then some node
    else
      let word := lowerWord (phrase.getD wordIndex [])
      let child0 := match getEntry word node.children with
        | some c => c
        | none => Node.mk word [] []
      let child1 := Node.mk child0.word (addDoc doc child0.documents)
        child0.children
      match buildPhraseTreeF fuel child1 doc phrase (wordIndex + 1) with
      | none => none
      | some child2 =>
        some (Node.mk node.word node.documents
          (setEntry word child2 node.children))

/-- The recursion of _buildPhraseTree terminates within a budget of one
more than the number of remaining phrase words, and computes the insertion
of the remaining suffix. -/
theorem buildPhraseTreeF_spec :
    ∀ (k : Nat) (node : Node) (doc : Doc) (phrase : List Word)
      (wordIndex : Nat), wordIndex ≤ phrase.length →
      phrase.length - wordIndex < k →
      buildPhraseTreeF k node doc phrase wordIndex
        = some (buildPhraseTree node doc (phrase.drop wordIndex)) := by
  intro k
  induction k with
  | zero => intro node doc phrase wordIndex h1 h2; omega
  | succ k ih =>
    intro node doc phrase wordIndex h1 h2
    rw [buildPhraseTreeF]
    by_cases hlen : phrase.length = wordIndex
    · rw [if_pos hlen, ← hlen, List.drop_length, buildPhraseTree]
    · rw [if_neg hlen]
      have hlt : wordIndex < phrase.length := by omega
      have hdrop : phrase.drop wordIndex
          = phrase[wordIndex] :: phrase.drop (wordIndex + 1) :=
        List.drop_eq_getElem_cons hlt
      have hgetD : phrase.getD wordIndex [] = phrase[wordIndex] := by
        rw [List.getD_eq_getElem?_getD, List.getElem?_eq_getElem hlt]
        rfl
      dsimp only
      rw [hgetD, ih _ doc phrase (wordIndex + 1) (by omega) (by omega),
        hdrop, buildPhraseTree]

mutual
/-- The JS _traverse with an explicit budget on the recursion depth: each
nested recursive call consumes one budget unit, mirroring that it consumes
one query word. -/
def traverseF (fuel : Nat) (θ : Int) (qws : List Word) (node : Node)
    (m : Doc → Option Nat) (idx pd : Nat) : Option (Doc → Option Nat) :=
  match fuel with
  | 0 => none
  | fuel + 1 =>
    if node.children.isEmpty then
      some (fun doc =>
        if doc ∈ node.documents then
          some (match m doc with
            | some x => min pd x
            | none => pd)
        else m doc)
    else if idx = qws.length then some m
    else traverseListF fuel θ qws (qws.getD idx []) node.children m idx pd
termination_by (fuel, 0)

/-- The for-of loop of _traverse under the budgeted recursion. -/
def traverseListF (fuel : Nat) (θ : Int) (qws : List Word) (qw : Word)
    (cs : List (Word × Node)) (m : Doc → Option Nat) (idx pd : Nat) :
    Option (Doc → Option Nat) :=
  match cs with
  | [] => some m
  | (w, child) :: rest =>
    let dist := lev qw w
    if (dist : Int) ≤ θ then
      match traverseF fuel θ qws child m (idx + 1) (pd + dist) with
      | none => none
      | some m' => traverseListF fuel θ qws qw rest m' idx pd
    else traverseListF fuel θ qws qw rest m idx pd
termination_by (fuel, cs.length + 1)
end

mutual
/-- The recursion of _traverse terminates within a budget of one more
than the number of unconsumed query words, and computes the total
traversal. -/
theorem traverseF_spec (k : Nat) (θ : Int) (qws : List Word) (node : Node)
    (m : Doc → Option Nat) (idx pd : Nat) (hidx : idx ≤ qws.length)
    (hk : qws.length - idx < k) :
    traverseF k θ qws node m idx pd
      = some (traverse θ qws node m idx pd) := by
  match k with
  | 0 => omega
  | k + 1 =>
    rw [traverseF, traverse.eq_def]
    by_cases hleaf : node.children.isEmpty
    · rw [if_pos hleaf, if_pos hleaf]
    · rw [if_neg hleaf, if_neg hleaf]
      by_cases hlen : idx = qws.length
      · rw [if_pos hlen, if_pos hlen]
      · rw [if_neg hlen, if_neg hlen]
        exact traverseListF_spec k θ qws (qws.getD idx []) node.children m
          idx pd (by omega) (by omega)
termination_by (k, 0)

theorem traverseListF_spec (k : Nat) (θ : Int) (qws : List Word)
    (qw : Word) (cs : List (Word × Node)) (m : Doc → Option Nat)
    (idx pd : Nat) (hidx : idx < qws.length)
    (hk : qws.length - (idx + 1) < k) :
    traverseListF k θ qws qw cs m idx pd
      = some (traverseList θ qws qw cs m idx pd) := by
  match cs with
  | [] => rw [traverseListF, traverseList.eq_def]
  | (w, child) :: rest =>
    rw [traverseListF, traverseList.eq_def]
    dsimp only
    by_cases hθ : ((lev qw w : Nat) : Int) ≤ θ
    · rw [if_pos hθ, if_pos hθ]
      rw [traverseF_spec k θ qws child m (idx + 1) (pd + lev qw w)
        (by omega) (by omega)]
      exact traverseListF_spec k θ qws qw rest _ idx pd hidx hk
    · rw [if_neg hθ, if_neg hθ]
      exact traverseListF_spec k θ qws qw rest m idx pd hidx hk
termination_by (k, cs.length + 1)
end

/-- C10: the recursive traversal terminates because each recursive
_traverse call consumes one query word (a budget of the number of
unconsumed query words plus one suffices and reproduces the total
traversal), each _buildPhraseTree call consumes one phrase word (the
remaining-word budget suffices), and score always returns a complete
result with one entry per registered document. -/
theorem C10_bounded_recursion (node : Node) (doc : Doc)
    (phrase : List Word) (wordIndex : Nat) (θ : Int) (qws : List Word)
    (m : Doc → Option Nat) (idx pd : Nat) (s : Scorer) (q : Word)
    (h1 : wordIndex ≤ phrase.length) (h2 : idx ≤ qws.length) :
    buildPhraseTreeF (phrase.length - wordIndex + 1) node doc phrase
        wordIndex
      = some (buildPhraseTree node doc (phrase.drop wordIndex))
    ∧ traverseF (qws.length - idx + 1) θ qws node m idx pd
      = some (traverse θ qws node m idx pd)
    ∧ (score s q).length = s.documents.length :=
  ⟨buildPhraseTreeF_spec _ node doc phrase wordIndex h1 (by omega),
    traverseF_spec _ θ qws node m idx pd h2 (by omega),
    by rw [score_eval, List.length_mergeSort, List.length_map]⟩

theorem C10_bounded_recursion_witness :
    buildPhraseTreeF 2 (Node.mk [] [] []) docA1 [['a']] 0
      = some (buildPhraseTree (Node.mk [] [] []) docA1
          (List.drop 0 [['a']]))
    ∧ traverseF 2 1 [['a']] (Node.mk [] [] []) (fun _ => none) 0 0
      = some (traverse 1 [['a']] (Node.mk [] [] []) (fun _ => none) 0 0)
    ∧ (score scorerAB ['a']).length = scorerAB.documents.length :=
  C10_bounded_recursion (Node.mk [] [] []) docA1 [['a']] 0 1 [['a']]
    (fun _ => none) 0 0 scorerAB ['a'] (by omega) (by omega)

/-- p is a (not necessarily proper) prefix of q. -/
def prefixOf (p q : List Word) : Prop := ∃ t, p ++ t = q

theorem prefixOf_refl (p : List Word) : prefixOf p p :=
  ⟨[], List.append_nil p⟩

theorem prefixOf_nil_left (q : List Word) : prefixOf [] q := ⟨q, rfl⟩

theorem prefixOf_nil_right {p : List Word} (h : prefixOf p []) : p = [] := by
  obtain ⟨t, ht⟩ := h
  exact List.append_eq_nil.mp ht |>.1

theorem prefixOf_cons_cons {q u : Word} {qs us : List Word} :
    prefixOf (q :: qs) (u :: us) ↔ q = u ∧ prefixOf qs us := by
  constructor
  · rintro ⟨t, ht⟩
    rw [List.cons_append] at ht
    injection ht with h1 h2
    exact ⟨h1, t, h2⟩
  · rintro ⟨rfl, t, ht⟩
    exact ⟨t, by rw [List.cons_append, ht]⟩

theorem prefixOf_extend {p q : List Word} (h : prefixOf p q) (hne : p ≠ q) :
    ∃ w, prefixOf (p ++ [w]) q := by
  obtain ⟨t, ht⟩ := h
  cases t with
  | nil => rw [List.append_nil] at ht; exact absurd ht hne
  | cons w t' =>
    exact ⟨w, t', by rw [List.append_assoc, List.singleton_append, ht]⟩

theorem mem_addDoc_iff {d doc : Doc} {l : List Doc} :
    d ∈ addDoc doc l ↔ d ∈ l ∨ d = doc := by
  rw [addDoc]
  by_cases h : doc ∈ l
  · rw [if_pos h]
    constructor
    · exact Or.inl
    · rintro (hd | rfl)
      · exact hd
      · exact h
  · rw [if_neg h, List.mem_append, List.mem_singleton]

theorem DocAt_nil (t : Node) (d : Doc) :
    DocAt t [] d ↔ d ∈ t.documents := by
  constructor
  · rintro ⟨n, hn, hd⟩
    rw [followPath_nil] at hn
    injection hn with hn
    subst hn
    exact hd
  · intro hd
    exact ⟨t, followPath_nil t, hd⟩

theorem followPath_singleton (t : Node) (w : Word) :
    followPath t [w] = getEntry w t.children := by
  rw [followPath]
  cases getEntry w t.children <;> rfl

theorem followPath_cons_none {t : Node} {q : Word} {qs : List Word}
    (h : getEntry q t.children = none) : followPath t (q :: qs) = none := by
  rw [followPath, h]

theorem followPath_cons_some {t c : Node} {q : Word} {qs : List Word}
    (h : getEntry q t.children = some c) :
    followPath t (q :: qs) = followPath c qs := by
  rw [followPath, h]

theorem followPath_append_isSome {t : Node} {p : List Word} {w : Word} :
    ∀ {n : Node}, followPath t p = some n →
      ((followPath t (p ++ [w])).isSome ↔
        (getEntry w n.children).isSome) := by
  induction p generalizing t with
  | nil =>
    intro n hn
    rw [followPath_nil] at hn
    injection hn with hn
    subst hn
    rw [List.nil_append, followPath_singleton]
  | cons q qs ih =>
    intro n hn
    cases hg : getEntry q t.children with
    | none => rw [followPath_cons_none hg] at hn; cases hn
    | some c =>
      rw [followPath_cons_some hg] at hn
      rw [List.cons_append, followPath_cons_some hg]
      exact ih hn

theorem isEmpty_getEntry_none {cs : List (Word × Node)}
    (h : cs.isEmpty = true) (w : Word) : getEntry w cs = none := by
  rw [List.isEmpty_iff.mp h]
  rfl

theorem getEntry_isSome_not_isEmpty {cs : List (Word × Node)} {w : Word}
    (h : (getEntry w cs).isSome) : cs.isEmpty = false := by
  cases cs with
  | nil => rw [getEntry] at h; cases h
  | cons a l => rfl

/-- Paths of a node rebuilt with the same children but different word or
document list coincide on nonempty paths. -/
theorem followPath_isSome_mk (c : Node) (w' : Word) (ds' : List Doc) :
    ∀ (p : List Word), p ≠ [] →
      followPath (Node.mk w' ds' c.children) p = followPath c p
  | [], h => absurd rfl h
  | q :: qs, _ => followPath_mk_children w' ds' c q qs

theorem DocAt_cons_some {t c : Node} {q : Word} {qs : List Word}
    (h : getEntry q t.children = some c) (d : Doc) :
    DocAt t (q :: qs) d ↔ DocAt c qs d := by
  rw [DocAt, DocAt, followPath_cons_some h]

theorem DocAt_cons_none {t : Node} {q : Word} {qs : List Word}
    (h : getEntry q t.children = none) (d : Doc) :
    ¬ DocAt t (q :: qs) d := by
  rintro ⟨n, hn, -⟩
  rw [followPath_cons_none h] at hn
  cases hn

/-- Characterization of a single phrase insertion: the paths of the new
tree are the old paths plus the prefixes of the inserted (lowercased) word
sequence, and the documents found at the end of a path are the old ones
plus the inserted document at every nonempty prefix of the inserted
sequence. -/
theorem buildPhraseTree_characterize (doc : Doc) :
    ∀ (ws : List Word) (t : Node) (p : List Word),
      ((followPath (buildPhraseTree t doc ws) p).isSome ↔
        ((followPath t p).isSome ∨ prefixOf p (ws.map lowerWord)))
      ∧ ∀ d, DocAt (buildPhraseTree t doc ws) p d ↔
        (DocAt t p d ∨ (d = doc ∧ p ≠ [] ∧ prefixOf p (ws.map lowerWord)))
  | [], t, p => by
    rw [buildPhraseTree, List.map_nil]
    constructor
    · constructor
      · exact Or.inl
      · rintro (h | hpre)
        · exact h
        · rw [prefixOf_nil_right hpre, followPath_nil]; rfl
    · intro d
      constructor
      · exact Or.inl
      · rintro (h | ⟨rfl, hne, hpre⟩)
        · exact h
        · exact absurd (prefixOf_nil_right hpre) hne
  | w :: rest, t, p => by
    simp only [buildPhraseTree, List.map_cons]
    cases p with
    | nil =>
      constructor
      · simp only [followPath_nil, Option.isSome_some, true_iff]
        exact Or.inl trivial
      · intro d
        rw [DocAt_nil, DocAt_nil, Node.documents_mk]
        constructor
        · exact Or.inl
        · rintro (h | ⟨rfl, hne, -⟩)
          · exact h
          · exact absurd rfl hne
    | cons q qs =>
      by_cases hq : lowerWord w = q
      · subst hq
        have hpre : prefixOf (lowerWord w :: qs)
            (lowerWord w :: rest.map lowerWord) ↔
            prefixOf qs (rest.map lowerWord) := by
          rw [prefixOf_cons_cons]
          exact ⟨fun h => h.2, fun h => ⟨rfl, h⟩⟩
        cases hg : getEntry (lowerWord w) t.children with
        | some c =>
          simp only [hg]
          obtain ⟨ih1, ih2⟩ := buildPhraseTree_characterize doc rest
            (Node.mk c.word (addDoc doc c.documents) c.children) qs
          have hc2 : getEntry (lowerWord w) (Node.mk t.word t.documents
              (setEntry (lowerWord w) (buildPhraseTree (Node.mk c.word
                (addDoc doc c.documents) c.children) doc rest)
                t.children)).children
              = some (buildPhraseTree (Node.mk c.word
                (addDoc doc c.documents) c.children) doc rest) := by
            rw [Node.children_mk]
            exact getEntry_setEntry_self _ _ _
          constructor
          · rw [followPath_cons_some hc2, followPath_cons_some hg, ih1,
              hpre]
            have hsame : (followPath (Node.mk c.word (addDoc doc
                c.documents) c.children) qs).isSome
                = (followPath c qs).isSome := by
              cases qs with
              | nil => rfl
              | cons q' qs' => rw [followPath_mk_children]
            rw [hsame]
          · intro d
            rw [DocAt_cons_some hc2, DocAt_cons_some hg, ih2 d, hpre]
            have hchild1 : DocAt (Node.mk c.word (addDoc doc c.documents)
                c.children) qs d ↔
                (DocAt c qs d ∨ (d = doc ∧ qs = [])) := by
              cases qs with
              | nil =>
                rw [DocAt_nil, DocAt_nil, Node.documents_mk,
                  mem_addDoc_iff]
                constructor
                · rintro (h | h)
                  · exact Or.inl h
                  · exact Or.inr ⟨h, rfl⟩
                · rintro (h | ⟨h, -⟩)
                  · exact Or.inl h
                  · exact Or.inr h
              | cons q' qs' =>
                rw [DocAt, DocAt, followPath_mk_children]
                constructor
                · rintro ⟨n, hn, hd⟩
                  exact Or.inl ⟨n, hn, hd⟩
                · rintro (⟨n, hn, hd⟩ | ⟨-, h⟩)
                  · exact ⟨n, hn, hd⟩
                  · cases h
            rw [hchild1]
            constructor
            · rintro ((h | ⟨rfl, rfl⟩) | ⟨rfl, hne, hp⟩)
              · exact Or.inl h
              · exact Or.inr ⟨rfl, by simp, prefixOf_nil_left _⟩
              · exact Or.inr ⟨rfl, by simp, hp⟩
            · rintro (h | ⟨rfl, -, hp⟩)
              · exact Or.inl (Or.inl h)
              · cases qs with
                | nil => exact Or.inl (Or.inr ⟨rfl, rfl⟩)
                | cons a b => exact Or.inr ⟨rfl, by simp, hp⟩
        | none =>
          simp only [hg, Node.word_mk, Node.documents_mk, Node.children_mk]
          obtain ⟨ih1, ih2⟩ := buildPhraseTree_characterize doc rest
            (Node.mk (lowerWord w) (addDoc doc []) []) qs
          have hc2 : getEntry (lowerWord w) (Node.mk t.word t.documents
              (setEntry (lowerWord w) (buildPhraseTree (Node.mk
                (lowerWord w) (addDoc doc []) []) doc rest)
                t.children)).children
              = some (buildPhraseTree (Node.mk (lowerWord w)
                (addDoc doc []) []) doc rest) := by
            rw [Node.children_mk]
            exact getEntry_setEntry_self _ _ _
          constructor
          · rw [followPath_cons_some hc2, followPath_cons_none hg, ih1,
              hpre]
            simp only [Option.isSome_none, Bool.false_eq_true, false_or]
            constructor
            · rintro (h | h)
              · cases qs with
                | nil => exact prefixOf_nil_left _
                | cons q' qs' =>
                  rw [followPath_cons_none (show getEntry q'
                    (Node.mk (lowerWord w) (addDoc doc []) []).children
                      = none from rfl)] at h
                  cases h
              · exact h
            · exact Or.inr
          · intro d
            rw [DocAt_cons_some hc2, ih2 d, hpre]
            have hfalse : ¬ DocAt t (lowerWord w :: qs) d :=
              DocAt_cons_none hg d
            constructor
            · rintro (h | ⟨rfl, hne, hp⟩)
              · cases qs with
                | nil =>
                  have h' := (DocAt_nil _ d).mp h
                  rcases mem_addDoc_iff.mp h' with h'' | h''
                  · exact absurd h'' (List.not_mem_nil _)
                  · exact Or.inr ⟨h'', by simp, prefixOf_nil_left _⟩
                | cons q' qs' =>
                  exact absurd h (DocAt_cons_none (show getEntry q'
                    (Node.mk (lowerWord w) (addDoc doc []) []).children
                      = none from rfl) d)
              · exact Or.inr ⟨rfl, by simp, hp⟩
            · rintro (h | ⟨rfl, -, hp⟩)
              · exact absurd h hfalse
              · cases qs with
                | nil =>
                  exact Or.inl ((DocAt_nil _ d).mpr
                    (mem_addDoc_iff.mpr (Or.inr rfl)))
                | cons a b => exact Or.inr ⟨rfl, by simp, hp⟩
      · have hng : getEntry q (Node.mk t.word t.documents
            (setEntry (lowerWord w) (buildPhraseTree (Node.mk
              (match getEntry (lowerWord w) t.children with
                | some c => c
                | none => Node.mk (lowerWord w) [] []).word
              (addDoc doc (match getEntry (lowerWord w) t.children with
                | some c => c
                | none => Node.mk (lowerWord w) [] []).documents)
              (match getEntry (lowerWord w) t.children with
                | some c => c
                | none => Node.mk (lowerWord w) [] []).children) doc rest)
              t.children)).children = getEntry q t.children := by
          rw [Node.children_mk]
          exact getEntry_setEntry_ne hq _ _
        have hfp : followPath (Node.mk t.word t.documents
            (setEntry (lowerWord w) (buildPhraseTree (Node.mk
              (match getEntry (lowerWord w) t.children with
                | some c => c
                | none => Node.mk (lowerWord w) [] []).word
              (addDoc doc (match getEntry (lowerWord w) t.children with
                | some c => c
                | none => Node.mk (lowerWord w) [] []).documents)
              (match getEntry (lowerWord w) t.children with
                | some c => c
                | none => Node.mk (lowerWord w) [] []).children) doc rest)
              t.children)) (q :: qs) = followPath t (q :: qs) := by
          cases hg : getEntry q t.children with
          | none =>
            rw [followPath_cons_none (hng.trans hg),
              followPath_cons_none hg]
          | some c =>
            rw [followPath_cons_some (hng.trans hg),
              followPath_cons_some hg]
        have hnopre : ¬ prefixOf (q :: qs)
            (lowerWord w :: rest.map lowerWord) := fun hpre =>
          hq (prefixOf_cons_cons.mp hpre).1.symm
        constructor
        · rw [hfp]
          constructor
          · exact Or.inl
          · rintro (h | h)
            · exact h
            · exact absurd h hnopre
        · intro d
          rw [DocAt, DocAt, hfp]
          constructor
          · exact fun h => Or.inl h
          · rintro (h | ⟨-, -, h⟩)
            · exact h
            · exact absurd h hnopre

/-- A word sequence actually inserted into the tree for a document: one of
its phrases, tokenized, expanded by the variations, and lowercased again
by the insertion. -/
def InsPhrase (vars : Variations) (d : Doc) (q : List Word) : Prop :=
  ∃ P, P ∈ d.phrases ∧ ∃ e, e ∈ expandPhrase vars (tokenize P)
    ∧ q = e.map lowerWord

theorem foldl_insert_characterize (doc : Doc) :
    ∀ (xs : List (List Word)) (t : Node) (p : List Word),
      ((followPath (xs.foldl (fun r pr => buildPhraseTree r doc pr) t)
          p).isSome ↔
        ((followPath t p).isSome
          ∨ ∃ q, q ∈ xs ∧ prefixOf p (q.map lowerWord)))
      ∧ ∀ d, DocAt (xs.foldl (fun r pr => buildPhraseTree r doc pr) t) p d
        ↔ (DocAt t p d ∨ (d = doc ∧ p ≠ []
            ∧ ∃ q, q ∈ xs ∧ prefixOf p (q.map lowerWord)))
  | [], t, p => by
    rw [List.foldl_nil]
    constructor
    · constructor
      · exact Or.inl
      · rintro (h | ⟨q, hq, -⟩)
        · exact h
        · exact absurd hq (List.not_mem_nil _)
    · intro d
      constructor
      · exact Or.inl
      · rintro (h | ⟨-, -, q, hq, -⟩)
        · exact h
        · exact absurd hq (List.not_mem_nil _)
  | x :: xs, t, p => by
    rw [List.foldl_cons]
    obtain ⟨ih1, ih2⟩ := foldl_insert_characterize doc xs
      (buildPhraseTree t doc x) p
    obtain ⟨hb1, hb2⟩ := buildPhraseTree_characterize doc x t p
    constructor
    · rw [ih1, hb1]
      constructor
      · rintro ((h | hx) | ⟨q, hq, hpq⟩)
        · exact Or.inl h
        · exact Or.inr ⟨x, List.mem_cons_self _ _, hx⟩
        · exact Or.inr ⟨q, List.mem_cons_of_mem _ hq, hpq⟩
      · rintro (h | ⟨q, hq, hpq⟩)
        · exact Or.inl (Or.inl h)
        · rcases List.mem_cons.mp hq with rfl | hq'
          · exact Or.inl (Or.inr hpq)
          · exact Or.inr ⟨q, hq', hpq⟩
    · intro d
      rw [ih2 d, hb2 d]
      constructor
      · rintro ((h | ⟨rfl, hne, hx⟩) | ⟨rfl, hne, q, hq, hpq⟩)
        · exact Or.inl h
        · exact Or.inr ⟨rfl, hne, x, List.mem_cons_self _ _, hx⟩
        · exact Or.inr ⟨rfl, hne, q, List.mem_cons_of_mem _ hq, hpq⟩
      · rintro (h | ⟨rfl, hne, q, hq, hpq⟩)
        · exact Or.inl (Or.inl h)
        · rcases List.mem_cons.mp hq with rfl | hq'
          · exact Or.inl (Or.inr ⟨rfl, hne, hpq⟩)
          · exact Or.inr ⟨rfl, hne, q, hq', hpq⟩

theorem foldl_phrases_characterize (vars : Variations) (doc : Doc) :
    ∀ (ps : List Word) (t : Node) (p : List Word),
      ((followPath (ps.foldl (fun root phraseStr =>
          (expandPhrase vars (tokenize phraseStr)).foldl
            (fun r pr => buildPhraseTree r doc pr) root) t) p).isSome ↔
        ((followPath t p).isSome ∨ ∃ P, P ∈ ps
          ∧ ∃ e, e ∈ expandPhrase vars (tokenize P)
          ∧ prefixOf p (e.map lowerWord)))
      ∧ ∀ d, DocAt (ps.foldl (fun root phraseStr =>
          (expandPhrase vars (tokenize phraseStr)).foldl
            (fun r pr => buildPhraseTree r doc pr) root) t) p d
        ↔ (DocAt t p d ∨ (d = doc ∧ p ≠ []
            ∧ ∃ P, P ∈ ps ∧ ∃ e, e ∈ expandPhrase vars (tokenize P)
              ∧ prefixOf p (e.map lowerWord)))
  | [], t, p => by
    rw [List.foldl_nil]
    constructor
    · constructor
      · exact Or.inl
      · rintro (h | ⟨P, hP, -⟩)
        · exact h
        · exact absurd hP (List.not_mem_nil _)
    · intro d
      constructor
      · exact Or.inl
      · rintro (h | ⟨-, -, P, hP, -⟩)
        · exact h
        · exact absurd hP (List.not_mem_nil _)
  | P0 :: ps, t, p => by
    rw [List.foldl_cons]
    obtain ⟨ih1, ih2⟩ := foldl_phrases_characterize vars doc ps
      ((expandPhrase vars (tokenize P0)).foldl
        (fun r pr => buildPhraseTree r doc pr) t) p
    obtain ⟨hb1, hb2⟩ := foldl_insert_characterize doc
      (expandPhrase vars (tokenize P0)) t p
    constructor
    · rw [ih1, hb1]
      constructor
      · rintro ((h | ⟨e, he, hpe⟩) | ⟨P, hP, e, he, hpe⟩)
        · exact Or.inl h
        · exact Or.inr ⟨P0, List.mem_cons_self _ _, e, he, hpe⟩
        · exact Or.inr ⟨P, List.mem_cons_of_mem _ hP, e, he, hpe⟩
      · rintro (h | ⟨P, hP, e, he, hpe⟩)
        · exact Or.inl (Or.inl h)
        · rcases List.mem_cons.mp hP with rfl | hP'
          · exact Or.inl (Or.inr ⟨e, he, hpe⟩)
          · exact Or.inr ⟨P, hP', e, he, hpe⟩
    · intro d
      rw [ih2 d, hb2 d]
      constructor
      · rintro ((h | ⟨rfl, hne, e, he, hpe⟩)
          | ⟨rfl, hne, P, hP, e, he, hpe⟩)
        · exact Or.inl h
        · exact Or.inr ⟨rfl, hne, P0, List.mem_cons_self _ _, e, he, hpe⟩
        · exact Or.inr ⟨rfl, hne, P, List.mem_cons_of_mem _ hP, e, he,
            hpe⟩
      · rintro (h | ⟨rfl, hne, P, hP, e, he, hpe⟩)
        · exact Or.inl (Or.inl h)
        · rcases List.mem_cons.mp hP with rfl | hP'
          · exact Or.inl (Or.inr ⟨rfl, hne, e, he, hpe⟩)
          · exact Or.inr ⟨rfl, hne, P, hP', e, he, hpe⟩

theorem addDocument_characterize (s : Scorer) (doc : Doc)
    (p : List Word) :
    ((followPath (addDocument s doc).rootNode p).isSome ↔
      ((followPath s.rootNode p).isSome
        ∨ ∃ q, InsPhrase s.variations doc q ∧ prefixOf p q))
    ∧ ∀ d, DocAt (addDocument s doc).rootNode p d ↔
      (DocAt s.rootNode p d ∨ (d = doc ∧ p ≠ []
        ∧ ∃ q, InsPhrase s.variations doc q ∧ prefixOf p q)) := by
  rw [addDocument_rootNode]
  obtain ⟨h1, h2⟩ := foldl_phrases_characterize s.variations doc
    doc.phrases s.rootNode p
  have hiff : (∃ P, P ∈ doc.phrases
      ∧ ∃ e, e ∈ expandPhrase s.variations (tokenize P)
        ∧ prefixOf p (e.map lowerWord))
      ↔ ∃ q, InsPhrase s.variations doc q ∧ prefixOf p q := by
    constructor
    · rintro ⟨P, hP, e, he, hpe⟩
      exact ⟨e.map lowerWord, ⟨P, hP, e, he, rfl⟩, hpe⟩
    · rintro ⟨q, ⟨P, hP, e, he, rfl⟩, hpq⟩
      exact ⟨P, hP, e, he, hpq⟩
  constructor
  · rw [h1, hiff]
  · intro d
    rw [h2 d, hiff]

theorem addDocument_variations (s : Scorer) (doc : Doc) :
    (addDocument s doc).variations = s.variations := rfl

theorem addDocuments_characterize :
    ∀ (ds : List Doc) (s : Scorer) (p : List Word),
      ((followPath (addDocuments s ds).rootNode p).isSome ↔
        ((followPath s.rootNode p).isSome
          ∨ ∃ d0, d0 ∈ ds ∧ ∃ q, InsPhrase s.variations d0 q
            ∧ prefixOf p q))
      ∧ ∀ d, DocAt (addDocuments s ds).rootNode p d ↔
        (DocAt s.rootNode p d ∨ (d ∈ ds ∧ p ≠ []
          ∧ ∃ q, InsPhrase s.variations d q ∧ prefixOf p q))
  | [], s, p => by
    constructor
    · constructor
      · exact Or.inl
      · rintro (h | ⟨d0, hd0, -⟩)
        · exact h
        · exact absurd hd0 (List.not_mem_nil _)
    · intro d
      constructor
      · exact Or.inl
      · rintro (h | ⟨hd, -, -⟩)
        · exact h
        · exact absurd hd (List.not_mem_nil _)
  | x :: ds, s, p => by
    have hfold : addDocuments s (x :: ds)
        = addDocuments (addDocument s x) ds := rfl
    rw [hfold]
    obtain ⟨ih1, ih2⟩ := addDocuments_characterize ds (addDocument s x) p
    obtain ⟨ha1, ha2⟩ := addDocument_characterize s x p
    rw [addDocument_variations] at ih1 ih2
    constructor
    · rw [ih1, ha1]
      constructor
      · rintro ((h | ⟨q, hq, hpq⟩) | ⟨d0, hd0, q, hq, hpq⟩)
        · exact Or.inl h
        · exact Or.inr ⟨x, List.mem_cons_self _ _, q, hq, hpq⟩
        · exact Or.inr ⟨d0, List.mem_cons_of_mem _ hd0, q, hq, hpq⟩
      · rintro (h | ⟨d0, hd0, q, hq, hpq⟩)
        · exact Or.inl (Or.inl h)
        · rcases List.mem_cons.mp hd0 with rfl | hd0'
          · exact Or.inl (Or.inr ⟨q, hq, hpq⟩)
          · exact Or.inr ⟨d0, hd0', q, hq, hpq⟩
    · intro d
      rw [ih2 d, ha2 d]
      constructor
      · rintro ((h | ⟨rfl, hne, q, hq, hpq⟩) | ⟨hd, hne, q, hq, hpq⟩)
        · exact Or.inl h
        · exact Or.inr ⟨List.mem_cons_self _ _, hne, q, hq, hpq⟩
        · exact Or.inr ⟨List.mem_cons_of_mem _ hd, hne, q, hq, hpq⟩
      · rintro (h | ⟨hd, hne, q, hq, hpq⟩)
        · exact Or.inl (Or.inl h)
        · rcases List.mem_cons.mp hd with rfl | hd'
          · exact Or.inl (Or.inr ⟨rfl, hne, q, hq, hpq⟩)
          · exact Or.inr ⟨hd', hne, q, hq, hpq⟩

theorem init_followPath_isSome (θ : Int) (vars : Variations)
    (p : List Word) :
    (followPath (init θ vars).rootNode p).isSome ↔ p = [] := by
  cases p with
  | nil => simp
  | cons q qs =>
    rw [followPath_cons_none (show getEntry q
      (init θ vars).rootNode.children = none from rfl)]
    simp

theorem init_not_docAt (θ : Int) (vars : Variations) (p : List Word)
    (d : Doc) : ¬ DocAt (init θ vars).rootNode p d := by
  rintro ⟨n, hn, hd⟩
  cases p with
  | nil =>
    rw [followPath_nil] at hn
    injection hn with hn
    subst hn
    exact absurd hd (List.not_mem_nil _)
  | cons q qs =>
    rw [followPath_cons_none (show getEntry q
      (init θ vars).rootNode.children = none from rfl)] at hn
    cases hn

/-- C5 counterexample: in the scorer holding the phrases "a" and "a b"
for document A, the node reached by the word path "a" terminates the
complete registered phrase "a" (it is an inserted word sequence) and
carries A, yet it is not a leaf, since the longer phrase "a b" extends its
path; so leafness is not equivalent to terminating a phrase. -/
theorem C5_counterexample :
    followPath scorerAB.rootNode [['a']]
      = some (Node.mk ['a'] [docAB] [(['b'], Node.mk ['b'] [docAB] [])])
    ∧ (Node.mk ['a'] [docAB]
        [(['b'], Node.mk ['b'] [docAB] [])]).children.isEmpty = false
    ∧ InsPhrase scorerAB.variations docAB [['a']]
    ∧ docAB ∈ scorerAB.documents := by
  refine ⟨rfl, rfl, ⟨['a'], ?_, [['a']], ?_, rfl⟩, ?_⟩
  · show ['a'] ∈ docAB.phrases
    simp [docAB]
  · show [['a']] ∈ expandPhrase scorerAB.variations (tokenize ['a'])
    exact List.mem_singleton.mpr rfl
  · show docAB ∈ [docAB]
    exact List.mem_singleton.mpr rfl

/-- C5 amended: in any tree built by addDocument calls, a nonempty path
ending at a leaf does terminate at least one complete inserted phrase
(the leaf direction of the claimed equivalence holds), and the documents
attached to the leaf are exactly the registered documents owning that
exact word sequence after variation expansion; the converse direction of
the claimed equivalence is false: a node terminating a phrase need not be
a leaf. -/
theorem C5_leaf_terminates_phrase (θ : Int) (vars : Variations)
    (ds : List Doc) (p : List Word) (n : Node)
    (hp : p ≠ [])
    (hpath : followPath (addDocuments (init θ vars) ds).rootNode p
      = some n)
    (hleaf : n.children.isEmpty = true) :
    (∃ d, d ∈ ds ∧ InsPhrase vars d p)
    ∧ ∀ d, d ∈ n.documents ↔ (d ∈ ds ∧ InsPhrase vars d p) := by
  have hnochild : ∀ w, ¬ ((followPath
      (addDocuments (init θ vars) ds).rootNode (p ++ [w])).isSome
        = true) := by
    intro w hsome
    have hg := (followPath_append_isSome hpath).mp hsome
    rw [isEmpty_getEntry_none hleaf w] at hg
    cases hg
  have hforce : ∀ d0 q, InsPhrase vars d0 q → d0 ∈ ds → prefixOf p q →
      p = q := by
    intro d0 q hq hd0 hpq
    by_contra hne
    obtain ⟨w, hw⟩ := prefixOf_extend hpq hne
    refine hnochild w ?_
    obtain ⟨c1, -⟩ := addDocuments_characterize ds (init θ vars) (p ++ [w])
    exact c1.mpr (Or.inr ⟨d0, hd0, q, hq, hw⟩)
  obtain ⟨hchar1, hchar2⟩ := addDocuments_characterize ds (init θ vars) p
  constructor
  · have hsome : (followPath
        (addDocuments (init θ vars) ds).rootNode p).isSome = true := by
      rw [hpath]; rfl
    rcases hchar1.mp hsome with hinit | ⟨d0, hd0, q, hq, hpq⟩
    · exact absurd ((init_followPath_isSome θ vars p).mp hinit) hp
    · rw [hforce d0 q hq hd0 hpq]
      exact ⟨d0, hd0, hq⟩
  · intro d
    constructor
    · intro hd
      rcases (hchar2 d).mp ⟨n, hpath, hd⟩ with hinit | ⟨hmem, -, q, hq, hpq⟩
      · exact absurd hinit (init_not_docAt θ vars p d)
      · rw [hforce d q hq hmem hpq]
        exact ⟨hmem, hq⟩
    · rintro ⟨hmem, hq⟩
      obtain ⟨n', hn', hd'⟩ := (hchar2 d).mpr
        (Or.inr ⟨hmem, hp, p, hq, prefixOf_refl p⟩)
      rw [hpath] at hn'
      injection hn' with hn'
      subst hn'
      exact hd'

theorem C5_leaf_terminates_phrase_witness :
    (∃ d, d ∈ [docA1] ∧ InsPhrase [] d [['a']])
    ∧ ∀ d, d ∈ (Node.mk ['a'] [docA1] []).documents
        ↔ (d ∈ [docA1] ∧ InsPhrase [] d [['a']]) :=
  C5_leaf_terminates_phrase 1 [] [docA1] [['a']]
    (Node.mk ['a'] [docA1] []) (by simp) rfl rfl

end QueryScorer

namespace QueryScorerFlat

open QueryScorer (Word lev tokenize lowerWord)

/-- A document of the legacy flat scorer: an id and its word set. -/
structure Doc where
  id : String
  words : List Word
deriving DecidableEq

/-- The documentsByWord map: an association list from words to the
documents containing them, in JS Map insertion order; each document list
is duplicate-free in insertion order (a JS Set). -/
abbrev WordMap := List (Word × List Doc)

/-- Embedding of Map.prototype.get on documentsByWord. -/
def lookupWord (w : Word) : WordMap → Option (List Doc)
  | [] => none
  | (k, v) :: rest => if k = w then some v else lookupWord w rest

/-- Embedding of Map.prototype.set on documentsByWord. -/
def setWord (w : Word) (v : List Doc) : WordMap → WordMap
  | [] => [(w, v)]
  | (k, v') :: rest =>
    if k = w then (w, v) :: rest else (k, v') :: setWord w v rest

/-- Embedding of Set.prototype.add on a document set. -/
def addD (doc : Doc) (docs : List Doc) : List Doc :=
  if doc ∈ docs then docs else docs ++ [doc]

/-- The stored form of a document: the flat addDocument lowercases
doc.words in place before registering. -/
def regDoc (doc : Doc) : Doc := Doc.mk doc.id (doc.words.map lowerWord)

/-- Embedding of the flat QueryScorer.addDocument: every (lowercased)
word of the document maps to the set of documents containing it. -/
def addDocument (m : WordMap) (doc : Doc) : WordMap :=
  (regDoc doc).words.foldl
    (fun m word =>
      let docs := (lookupWord word m).getD []
      setWord word (addD (regDoc doc) docs) m) m

/-- A sequence of flat addDocument calls starting from the empty map. -/
def buildMap (ds : List Doc) : WordMap := ds.foldl addDocument []

/-- An association list from documents to accumulated naturals (the
minDistanceByDoc and sumByDoc maps of the flat score). -/
abbrev DocMap := List (Doc × Nat)

def lookupD (d : Doc) : DocMap → Option Nat
  | [] => none
  | (k, v) :: rest => if k = d then some v else lookupD d rest

def setD (d : Doc) (v : Nat) : DocMap → DocMap
  | [] => [(d, v)]
  | (k, v') :: rest =>
    if k = d then (d, v) :: rest else (k, v') :: setD d v rest

/-- One entry of the flat score result; the mean distance is an exact
rational (the JS number division is modelled exactly). -/
structure ScoreEntry where
  document : Doc
  score : ℚ
deriving DecidableEq

/-- The flat sort comparator (ascending mean distance). -/
def scoreLE (a b : ScoreEntry) : Bool := decide (a.score ≤ b.score)

/-- The minDistanceByDoc update for one (docWord, docs) map entry during
the scan for one search word (JS lines 85-96 of the flat scorer). -/
def stepMins (sw : Word) (mins : DocMap) (kv : Word × List Doc) : DocMap :=
  kv.2.foldl
    (fun mins doc =>
      setD doc
        (match lookupD doc mins with
          | some x => min (lev sw kv.1) x
          | none => lev sw kv.1) mins) mins

/-- The sumByDoc update after one search word (JS lines 97-99). -/
def stepSums (sums : DocMap) (dm : Doc × Nat) : DocMap :=
  setD dm.1 (dm.2 + (lookupD dm.1 sums).getD 0) sums

/-- Embedding of the flat QueryScorer.score (legacy variant): for each
search word the minimum distance per document over the whole map, summed
per document, divided by the number of search words, sorted ascending. -/
def score (m : WordMap) (searchString : Word) : List ScoreEntry :=
  let searchWords := tokenize searchString
  let sumByDoc := searchWords.foldl
    (fun sums searchWord =>
      let minDistanceByDoc := m.foldl (stepMins searchWord) []
      minDistanceByDoc.foldl stepSums sums) []
  let results := sumByDoc.map
    (fun dsum => ScoreEntry.mk dsum.1
      ((dsum.2 : ℚ) / (searchWords.length : ℚ)))
  results.mergeSort scoreLE

/-- The minimum edit distance between a query word and any word of the
stored document (0 fallback is never used for documents with words). -/
def wordMinDist (d : Doc) (w : Word) : Nat :=
  ((d.words.map (fun dw => lev w dw)).min?).getD 0

/-- The per-document score claimed by the spec: the mean over the query
words of the minimum edit distance to any word of the stored document. -/
def flatSpecScore (d : Doc) (qws : List Word) : ℚ :=
  ((qws.map (wordMinDist d)).sum : ℚ) / (qws.length : ℚ)

/-- Minimum of two optional naturals, absent values ignored (the
Infinity sentinel of the JS Math.min bookkeeping). -/
def optMin : Option Nat → Option Nat → Option Nat
  | none, b => b
  | some a, none => some a
  | some a, some b => some (min a b)

/-- Minimum of the selected values of a list, as an option. -/
def foldMin (f : α → Option Nat) (l : List α) : Option Nat :=
  l.foldl (fun acc x => optMin acc (f x)) none

/-- Minimum of a list of naturals, as an option. -/
def valMin (l : List Nat) : Option Nat := foldMin some l

/-- The minimum distance from search word sw that the scan of the
documentsByWord map records for document d. -/
def relMin (d : Doc) (sw : Word) (m : WordMap) : Option Nat :=
  foldMin (fun kv => if d ∈ kv.2 then some (lev sw kv.1) else none) m

theorem optMin_none_right (a : Option Nat) : optMin a none = a := by
  cases a <;> rfl

theorem optMin_comm (a b : Option Nat) : optMin a b = optMin b a := by
  cases a <;> cases b <;> simp [optMin, Nat.min_comm]

theorem optMin_assoc (a b c : Option Nat) :
    optMin (optMin a b) c = optMin a (optMin b c) := by
  cases a <;> cases b <;> cases c <;> simp [optMin, Nat.min_assoc]

theorem foldMin_acc (f : α → Option Nat) (l : List α) (a : Option Nat) :
    l.foldl (fun acc x => optMin acc (f x)) a = optMin a (foldMin f l) := by
  induction l generalizing a with
  | nil => simp [foldMin, optMin_none_right]
  | cons x l ih =>
    show l.foldl _ (optMin a (f x)) = _
    rw [ih]
    have hx : foldMin f (x :: l) = optMin (f x) (foldMin f l) := by
      show l.foldl _ (optMin none (f x)) = _
      rw [ih]
      rfl
    rw [hx, optMin_assoc]

theorem foldMin_cons (f : α → Option Nat) (x : α) (l : List α) :
    foldMin f (x :: l) = optMin (f x) (foldMin f l) := by
  show l.foldl _ (optMin none (f x)) = _
  rw [foldMin_acc]
  rfl

theorem valMin_eq_none (l : List Nat) : valMin l = none ↔ l = [] := by
  cases l with
  | nil => simp [valMin, foldMin]
  | cons x l =>
    rw [valMin, foldMin_cons]
    cases h : foldMin some l <;> simp [optMin]

theorem valMin_eq_some_iff (l : List Nat) :
    ∀ v, valMin l = some v ↔ (v ∈ l ∧ ∀ y ∈ l, v ≤ y) := by
  induction l with
  | nil => intro v; simp [valMin, foldMin]
  | cons x l ih =>
    intro v
    rw [valMin, foldMin_cons]
    cases hl : foldMin some l with
    | none =>
      have hnil : l = [] := (valMin_eq_none l).mp hl
      subst hnil
      simp only [optMin_none_right, Option.some_inj, List.mem_singleton]
      constructor
      · rintro rfl
        exact ⟨rfl, fun y hy => by omega⟩
      · rintro ⟨rfl, h⟩
        rfl
    | some w =>
      have hw := ((ih w).mp (by rw [valMin]; exact hl))
      simp only [optMin, Option.some_inj]
      constructor
      · rintro rfl
        refine ⟨?_, fun y hy => ?_⟩
        · rcases Nat.le_total x w with h | h
          · simp [Nat.min_eq_left h]
          · right
            rw [Nat.min_eq_right h]
            exact hw.1
        · rcases List.mem_cons.mp hy with rfl | hy
          · exact Nat.min_le_left _ _
          · exact le_trans (Nat.min_le_right x w) (hw.2 y hy)
      · rintro ⟨hv, hle⟩
        have h1 : v ≤ min x w :=
          le_min (hle x (List.mem_cons_self x l)) (hle w (List.mem_cons.mpr (Or.inr hw.1)))
        have h2 : min x w ≤ v := by
          rcases List.mem_cons.mp hv with rfl | hv
          · exact Nat.min_le_left _ _
          · exact le_trans (Nat.min_le_right x w) (hw.2 v hv)
        exact le_antisymm h2 h1

theorem valMin_congr_mem (l1 l2 : List Nat) (h : ∀ x, x ∈ l1 ↔ x ∈ l2) :
    valMin l1 = valMin l2 := by
  cases h1 : valMin l1 with
  | none =>
    have : l1 = [] := (valMin_eq_none l1).mp h1
    subst this
    have : l2 = [] := by
      cases l2 with
      | nil => rfl
      | cons y l2 => exact absurd ((h y).mpr (List.mem_cons_self y l2)) (by simp)
    rw [this, h1]
  | some a =>
    have ha := (valMin_eq_some_iff l1 a).mp h1
    symm
    rw [valMin_eq_some_iff]
    exact ⟨(h a).mp ha.1, fun y hy => ha.2 y ((h y).mpr hy)⟩

theorem foldl_min_some (l : List Nat) (a : Nat) :
    l.foldl (fun acc n => optMin acc (some n)) (some a) =
      some (l.foldl min a) := by
  induction l generalizing a with
  | nil => rfl
  | cons x l ih =>
    show l.foldl (fun acc n => optMin acc (some n)) (optMin (some a) (some x)) =
      some (List.foldl min a (x :: l))
    rw [show optMin (some a) (some x) = some (min a x) from rfl, ih]
    rfl

theorem valMin_eq_minQ (l : List Nat) : valMin l = l.min? := by
  cases l with
  | nil => rfl
  | cons x l =>
    show l.foldl (fun acc n => optMin acc (some n)) (some x) = (x :: l).min?
    rw [foldl_min_some]
    rfl

theorem mem_addD (D d : Doc) (docs : List Doc) :
    d ∈ addD D docs ↔ d ∈ docs ∨ d = D := by
  unfold addD
  split
  · next h =>
    constructor
    · exact Or.inl
    · rintro (hd | rfl)
      · exact hd
      · exact h
  · next h => simp

theorem step_mem_rel (D : Doc) (word : Word) (m : WordMap) (w : Word) (d : Doc) :
    (∃ docs, (w, docs) ∈ setWord word (addD D ((lookupWord word m).getD [])) m ∧ d ∈ docs) ↔
      ((∃ docs, (w, docs) ∈ m ∧ d ∈ docs) ∨ (d = D ∧ w = word)) := by
  induction m with
  | nil =>
    have h0 : setWord word (addD D ((lookupWord word ([] : WordMap)).getD [])) [] =
        [(word, [D])] := by
      simp [setWord, lookupWord, addD]
    rw [h0]
    constructor
    · rintro ⟨docs, hmem, hd⟩
      have heq := List.mem_singleton.mp hmem
      cases heq
      rcases List.mem_singleton.mp hd with rfl
      exact Or.inr ⟨rfl, rfl⟩
    · rintro (⟨docs, hmem, hd⟩ | ⟨h1, h2⟩)
      · cases hmem
      · exact ⟨[D], by rw [h2]; exact List.mem_singleton.mpr rfl,
          by rw [h1]; exact List.mem_singleton.mpr rfl⟩
  | cons kv rest ih =>
    obtain ⟨k, vs⟩ := kv
    by_cases hk : k = word
    · subst hk
      have hsw : setWord k (addD D ((lookupWord k ((k, vs) :: rest)).getD [])) ((k, vs) :: rest)
          = (k, addD D vs) :: rest := by
        simp [setWord, lookupWord]
      rw [hsw]
      constructor
      · rintro ⟨docs, hmem, hd⟩
        rcases List.mem_cons.mp hmem with heq | hmem'
        · cases heq
          rcases (mem_addD D d vs).mp hd with hdv | rfl
          · exact Or.inl ⟨vs, List.mem_cons_self _ _, hdv⟩
          · exact Or.inr ⟨rfl, rfl⟩
        · exact Or.inl ⟨docs, List.mem_cons_of_mem _ hmem', hd⟩
      · rintro (⟨docs, hmem, hd⟩ | ⟨h1, h2⟩)
        · rcases List.mem_cons.mp hmem with heq | hmem'
          · cases heq
            exact ⟨addD D vs, List.mem_cons_self _ _, (mem_addD _ _ _).mpr (Or.inl hd)⟩
          · exact ⟨docs, List.mem_cons_of_mem _ hmem', hd⟩
        · exact ⟨addD D vs, by rw [h2]; exact List.mem_cons_self _ _,
            (mem_addD _ _ _).mpr (Or.inr h1)⟩
    · have hsw : setWord word (addD D ((lookupWord word ((k, vs) :: rest)).getD []))
          ((k, vs) :: rest)
          = (k, vs) :: setWord word (addD D ((lookupWord word rest).getD [])) rest := by
        simp [setWord, lookupWord, hk]
      rw [hsw]
      constructor
      · rintro ⟨docs, hmem, hd⟩
        rcases List.mem_cons.mp hmem with heq | hmem'
        · cases heq
          exact Or.inl ⟨vs, List.mem_cons_self _ _, hd⟩
        · rcases ih.mp ⟨docs, hmem', hd⟩ with ⟨docs', hm', hd'⟩ | hr
          · exact Or.inl ⟨docs', List.mem_cons_of_mem _ hm', hd'⟩
          · exact Or.inr hr
      · rintro (⟨docs, hmem, hd⟩ | hr)
        · rcases List.mem_cons.mp hmem with heq | hmem'
          · cases heq
            exact ⟨vs, List.mem_cons_self _ _, hd⟩
          · obtain ⟨docs', hm', hd'⟩ := ih.mpr (Or.inl ⟨docs, hmem', hd⟩)
            exact ⟨docs', List.mem_cons_of_mem _ hm', hd'⟩
        · obtain ⟨docs', hm', hd'⟩ := ih.mpr (Or.inr hr)
          exact ⟨docs', List.mem_cons_of_mem _ hm', hd'⟩

theorem foldl_setWords_rel (D : Doc) (ws : List Word) (m : WordMap) (w : Word) (d : Doc) :
    (∃ docs, (w, docs) ∈ ws.foldl
        (fun m word => setWord word (addD D ((lookupWord word m).getD [])) m) m ∧ d ∈ docs) ↔
      ((∃ docs, (w, docs) ∈ m ∧ d ∈ docs) ∨ (d = D ∧ w ∈ ws)) := by
  induction ws generalizing m with
  | nil => simp
  | cons word0 ws ih =>
    rw [List.foldl_cons, ih, step_mem_rel]
    constructor
    · rintro ((h | ⟨rfl, rfl⟩) | ⟨rfl, hw⟩)
      · exact Or.inl h
      · exact Or.inr ⟨rfl, List.mem_cons_self _ _⟩
      · exact Or.inr ⟨rfl, List.mem_cons_of_mem _ hw⟩
    · rintro (h | ⟨rfl, hw⟩)
      · exact Or.inl (Or.inl h)
      · rcases List.mem_cons.mp hw with rfl | hw'
        · exact Or.inl (Or.inr ⟨rfl, rfl⟩)
        · exact Or.inr ⟨rfl, hw'⟩

theorem addDocument_rel (m : WordMap) (doc : Doc) (w : Word) (d : Doc) :
    (∃ docs, (w, docs) ∈ addDocument m doc ∧ d ∈ docs) ↔
      ((∃ docs, (w, docs) ∈ m ∧ d ∈ docs) ∨
        (d = regDoc doc ∧ w ∈ (regDoc doc).words)) :=
  foldl_setWords_rel (regDoc doc) (regDoc doc).words m w d

theorem foldl_addDocument_rel (ds : List Doc) (m : WordMap) (w : Word) (d : Doc) :
    (∃ docs, (w, docs) ∈ ds.foldl addDocument m ∧ d ∈ docs) ↔
      ((∃ docs, (w, docs) ∈ m ∧ d ∈ docs) ∨
        ∃ D, D ∈ ds ∧ d = regDoc D ∧ w ∈ (regDoc D).words) := by
  induction ds generalizing m with
  | nil => simp
  | cons D0 ds ih =>
    rw [List.foldl_cons, ih, addDocument_rel]
    constructor
    · rintro ((h | ⟨rfl, hw⟩) | ⟨D, hD, rfl, hw⟩)
      · exact Or.inl h
      · exact Or.inr ⟨D0, List.mem_cons_self _ _, rfl, hw⟩
      · exact Or.inr ⟨D, List.mem_cons_of_mem _ hD, rfl, hw⟩
    · rintro (h | ⟨D, hD, rfl, hw⟩)
      · exact Or.inl (Or.inl h)
      · rcases List.mem_cons.mp hD with rfl | hD'
        · exact Or.inl (Or.inr ⟨rfl, hw⟩)
        · exact Or.inr ⟨D, hD', rfl, hw⟩

theorem buildMap_rel (ds : List Doc) (w : Word) (d : Doc) :
    (∃ docs, (w, docs) ∈ buildMap ds ∧ d ∈ docs) ↔
      ∃ D, D ∈ ds ∧ d = regDoc D ∧ w ∈ (regDoc D).words := by
  have h := foldl_addDocument_rel ds [] w d
  simp only [List.not_mem_nil, false_and, exists_const, false_or] at h
  exact h

theorem valMin_cons (x : Nat) (l : List Nat) :
    valMin (x :: l) = optMin (some x) (valMin l) :=
  foldMin_cons some x l

theorem lookupD_setD_self (d : Doc) (v : Nat) (l : DocMap) :
    lookupD d (setD d v l) = some v := by
  induction l with
  | nil => simp [setD, lookupD]
  | cons kv l ih =>
    obtain ⟨k, v'⟩ := kv
    by_cases hk : k = d
    · subst hk
      simp [setD, lookupD]
    · simp only [setD, if_neg hk, lookupD, if_neg hk]
      exact ih

theorem lookupD_setD_ne (dk d : Doc) (v : Nat) (l : DocMap) (h : d ≠ dk) :
    lookupD d (setD dk v l) = lookupD d l := by
  induction l with
  | nil => simp [setD, lookupD, Ne.symm h]
  | cons kv l ih =>
    obtain ⟨k, v'⟩ := kv
    by_cases hk : k = dk
    · subst hk
      simp [setD, lookupD, Ne.symm h]
    · have h1 : setD dk v ((k, v') :: l) = (k, v') :: setD dk v l := by
        simp [setD, hk]
      rw [h1]
      by_cases hkd : k = d
      · subst hkd
        simp [lookupD]
      · simp only [lookupD, if_neg hkd]
        exact ih

theorem lookupD_eq_none_iff (d : Doc) (l : DocMap) :
    lookupD d l = none ↔ d ∉ l.map Prod.fst := by
  induction l with
  | nil => simp [lookupD]
  | cons kv l ih =>
    obtain ⟨k, v⟩ := kv
    by_cases hk : k = d
    · subst hk
      simp [lookupD]
    · simp [lookupD, hk, ih, Ne.symm hk]

theorem lookupD_mem (d : Doc) (l : DocMap) (v : Nat) (h : lookupD d l = some v) :
    (d, v) ∈ l := by
  induction l with
  | nil => cases h
  | cons kv l ih =>
    obtain ⟨k, v'⟩ := kv
    by_cases hk : k = d
    · subst hk
      simp [lookupD] at h
      subst h
      exact List.mem_cons_self _ _
    · simp only [lookupD, if_neg hk] at h
      exact List.mem_cons_of_mem _ (ih h)

theorem mem_keys_setD (x d : Doc) (v : Nat) (l : DocMap) :
    x ∈ (setD d v l).map Prod.fst ↔ x ∈ l.map Prod.fst ∨ x = d := by
  induction l with
  | nil => simp [setD]
  | cons kv l ih =>
    obtain ⟨k, v'⟩ := kv
    by_cases hk : k = d
    · subst hk
      simp [setD]
      tauto
    · simp [setD, hk, ih]
      tauto

theorem keysNodup_setD (d : Doc) (v : Nat) (l : DocMap)
    (h : (l.map Prod.fst).Nodup) : ((setD d v l).map Prod.fst).Nodup := by
  induction l with
  | nil => simp [setD]
  | cons kv l ih =>
    obtain ⟨k, v'⟩ := kv
    simp only [List.map_cons, List.nodup_cons] at h
    by_cases hk : k = d
    · subst hk
      simpa [setD] using h
    · simp only [setD, if_neg hk, List.map_cons, List.nodup_cons]
      refine ⟨?_, ih h.2⟩
      intro hmem
      rcases (mem_keys_setD k d v l).mp hmem with hk' | hk''
      · exact h.1 hk'
      · exact hk hk''

theorem keysNodup_fold_setD (docs : List Doc) (g : DocMap → Doc → Nat)
    (mins : DocMap) (h : (mins.map Prod.fst).Nodup) :
    ((docs.foldl (fun mins doc => setD doc (g mins doc) mins) mins).map
      Prod.fst).Nodup := by
  induction docs generalizing mins with
  | nil => exact h
  | cons doc docs ih => exact ih _ (keysNodup_setD _ _ _ h)

theorem keysNodup_stepMins (sw : Word) (mins : DocMap) (kv : Word × List Doc)
    (h : (mins.map Prod.fst).Nodup) :
    ((stepMins sw mins kv).map Prod.fst).Nodup :=
  keysNodup_fold_setD kv.2
    (fun mins doc =>
      match lookupD doc mins with
        | some x => min (lev sw kv.1) x
        | none => lev sw kv.1) mins h

theorem keysNodup_foldMins (sw : Word) (m : WordMap) (mins : DocMap)
    (h : (mins.map Prod.fst).Nodup) :
    ((m.foldl (stepMins sw) mins).map Prod.fst).Nodup := by
  induction m generalizing mins with
  | nil => exact h
  | cons kv m ih => exact ih _ (keysNodup_stepMins _ _ _ h)

theorem foldDocs_lookup (dist : Nat) (docs : List Doc) (mins : DocMap) (d : Doc) :
    lookupD d (docs.foldl
      (fun mins doc => setD doc
        (match lookupD doc mins with
          | some x => min dist x
          | none => dist) mins) mins) =
      if d ∈ docs then optMin (some dist) (lookupD d mins)
      else lookupD d mins := by
  induction docs generalizing mins with
  | nil => simp
  | cons doc docs ih =>
    rw [List.foldl_cons, ih]
    rcases eq_or_ne d doc with rfl | hd
    · by_cases hdd : d ∈ docs
      · rw [if_pos hdd, if_pos (List.mem_cons_self _ _), lookupD_setD_self]
        cases hl : lookupD d mins with
        | none => simp [optMin]
        | some x => simp [optMin, ← Nat.min_assoc, Nat.min_self]
      · rw [if_neg hdd, if_pos (List.mem_cons_self _ _), lookupD_setD_self]
        cases hl : lookupD d mins with
        | none => simp [optMin]
        | some x => simp [optMin]
    · rw [lookupD_setD_ne doc d _ mins hd]
      exact if_congr (by simp [List.mem_cons, hd]) rfl rfl

theorem stepMins_lookup (sw : Word) (mins : DocMap) (kv : Word × List Doc)
    (d : Doc) :
    lookupD d (stepMins sw mins kv) =
      if d ∈ kv.2 then optMin (some (lev sw kv.1)) (lookupD d mins)
      else lookupD d mins :=
  foldDocs_lookup (lev sw kv.1) kv.2 mins d

theorem foldMins_lookup (sw : Word) (m : WordMap) (mins0 : DocMap) (d : Doc) :
    lookupD d (m.foldl (stepMins sw) mins0) =
      optMin (lookupD d mins0) (relMin d sw m) := by
  induction m generalizing mins0 with
  | nil => exact (optMin_none_right _).symm
  | cons kv m ih =>
    rw [List.foldl_cons, ih, stepMins_lookup]
    have hrel : relMin d sw (kv :: m) =
        optMin (if d ∈ kv.2 then some (lev sw kv.1) else none) (relMin d sw m) :=
      foldMin_cons _ kv m
    rw [hrel]
    by_cases hd : d ∈ kv.2
    · rw [if_pos hd, if_pos hd]
      calc optMin (optMin (some (lev sw kv.1)) (lookupD d mins0)) (relMin d sw m)
          = optMin (optMin (lookupD d mins0) (some (lev sw kv.1)))
              (relMin d sw m) := by
            rw [optMin_comm (some (lev sw kv.1)) (lookupD d mins0)]
        _ = optMin (lookupD d mins0)
              (optMin (some (lev sw kv.1)) (relMin d sw m)) :=
            optMin_assoc _ _ _
    · rw [if_neg hd, if_neg hd]
      rfl

theorem relMin_eq_valMin_filter (d : Doc) (sw : Word) (m : WordMap) :
    relMin d sw m =
      valMin ((m.filter (fun kv => decide (d ∈ kv.2))).map
        (fun kv => lev sw kv.1)) := by
  induction m with
  | nil => rfl
  | cons kv m ih =>
    have hrel : relMin d sw (kv :: m) =
        optMin (if d ∈ kv.2 then some (lev sw kv.1) else none) (relMin d sw m) :=
      foldMin_cons _ kv m
    rw [hrel, ih]
    by_cases hd : d ∈ kv.2
    · rw [if_pos hd]
      have hf : (kv :: m).filter (fun kv => decide (d ∈ kv.2)) =
          kv :: m.filter (fun kv => decide (d ∈ kv.2)) := by
        rw [List.filter_cons, if_pos (by simpa using hd)]
      rw [hf, List.map_cons]
      exact (valMin_cons _ _).symm
    · rw [if_neg hd]
      have hf : (kv :: m).filter (fun kv => decide (d ∈ kv.2)) =
          m.filter (fun kv => decide (d ∈ kv.2)) := by
        rw [List.filter_cons, if_neg (by simpa using hd)]
      rw [hf]
      rfl

theorem relMin_eq_wordsMin (ds : List Doc) (D : Doc) (hD : D ∈ ds) (sw : Word) :
    relMin (regDoc D) sw (buildMap ds) =
      valMin ((regDoc D).words.map (fun dw => lev sw dw)) := by
  rw [relMin_eq_valMin_filter]
  apply valMin_congr_mem
  intro x
  simp only [List.mem_map, List.mem_filter, decide_eq_true_eq]
  constructor
  · rintro ⟨kv, ⟨hkv, hdkv⟩, rfl⟩
    obtain ⟨D', hD', hEq, hw⟩ := (buildMap_rel ds kv.1 (regDoc D)).mp
      ⟨kv.2, by rw [Prod.mk.eta]; exact hkv, hdkv⟩
    exact ⟨kv.1, by rw [hEq]; exact hw, rfl⟩
  · rintro ⟨dw, hdw, rfl⟩
    obtain ⟨docs, hmem, hd⟩ := (buildMap_rel ds dw (regDoc D)).mpr ⟨D, hD, rfl, hdw⟩
    exact ⟨(dw, docs), ⟨hmem, hd⟩, rfl⟩

theorem foldSums_lookup_none (mins : DocMap) :
    ∀ (sums : DocMap) (d : Doc), lookupD d mins = none →
      lookupD d (mins.foldl stepSums sums) = lookupD d sums := by
  induction mins with
  | nil => intro sums d _; rfl
  | cons dm mins ih =>
    intro sums d h
    obtain ⟨d0, v0⟩ := dm
    have hne : d0 ≠ d := by
      intro he
      simp [lookupD, he] at h
    have h2 : lookupD d mins = none := by
      simpa [lookupD, hne] using h
    rw [List.foldl_cons, ih _ _ h2]
    exact lookupD_setD_ne d0 d _ sums (Ne.symm hne)

theorem foldSums_lookup_some (mins : DocMap) :
    ∀ (sums : DocMap) (d : Doc) (v : Nat),
      (mins.map Prod.fst).Nodup → lookupD d mins = some v →
      lookupD d (mins.foldl stepSums sums) =
        some (v + (lookupD d sums).getD 0) := by
  induction mins with
  | nil => intro sums d v _ h; cases h
  | cons dm mins ih =>
    intro sums d v hnd h
    obtain ⟨d0, v0⟩ := dm
    simp only [List.map_cons, List.nodup_cons] at hnd
    by_cases hd : d0 = d
    · subst hd
      have hv : v0 = v := by simpa [lookupD] using h
      subst hv
      have hrest : lookupD d0 mins = none :=
        (lookupD_eq_none_iff _ _).mpr hnd.1
      rw [List.foldl_cons, foldSums_lookup_none mins _ _ hrest]
      exact lookupD_setD_self d0 _ sums
    · have h2 : lookupD d mins = some v := by simpa [lookupD, hd] using h
      rw [List.foldl_cons, ih _ _ _ hnd.2 h2]
      rw [show lookupD d (stepSums sums (d0, v0)) = lookupD d sums from
        lookupD_setD_ne d0 d _ sums (fun h' => hd h'.symm)]

theorem flat_score_eval (m : WordMap) (q : Word) :
    score m q =
      (((tokenize q).foldl
          (fun sums sw => (m.foldl (stepMins sw) []).foldl stepSums sums)
          []).map
        (fun dsum => ScoreEntry.mk dsum.1
          ((dsum.2 : ℚ) / ((tokenize q).length : ℚ)))).mergeSort scoreLE := rfl

theorem minsList_lookup (ds : List Doc) (D : Doc) (hD : D ∈ ds)
    (hw : (regDoc D).words ≠ []) (sw : Word) :
    lookupD (regDoc D) ((buildMap ds).foldl (stepMins sw) []) =
      some (wordMinDist (regDoc D) sw) := by
  rw [foldMins_lookup]
  show relMin (regDoc D) sw (buildMap ds) = _
  rw [relMin_eq_wordsMin ds D hD sw, valMin_eq_minQ]
  cases hm : ((regDoc D).words.map (fun dw => lev sw dw)).min? with
  | none =>
    exfalso
    rw [← valMin_eq_minQ] at hm
    exact hw (List.map_eq_nil_iff.mp ((valMin_eq_none _).mp hm))
  | some m0 =>
    rw [wordMinDist, hm]
    rfl

theorem sum_fold_lookup (m : WordMap) (d : Doc) (f : Word → Nat)
    (hf : ∀ sw, lookupD d (m.foldl (stepMins sw) []) = some (f sw)) :
    ∀ (qws : List Word) (sums0 : DocMap), qws ≠ [] →
      lookupD d (qws.foldl
        (fun sums sw => (m.foldl (stepMins sw) []).foldl stepSums sums)
        sums0) =
      some ((qws.map f).sum + (lookupD d sums0).getD 0) := by
  intro qws
  induction qws with
  | nil => intro sums0 h; exact absurd rfl h
  | cons sw qws ih =>
    intro sums0 _
    have hnd : ((m.foldl (stepMins sw) []).map Prod.fst).Nodup :=
      keysNodup_foldMins sw m [] (by simp)
    have h1 : lookupD d ((m.foldl (stepMins sw) []).foldl stepSums sums0) =
        some (f sw + (lookupD d sums0).getD 0) :=
      foldSums_lookup_some _ _ _ _ hnd (hf sw)
    cases qws with
    | nil =>
      rw [List.foldl_cons, List.foldl_nil, h1]
      simp
    | cons sw2 qws2 =>
      rw [List.foldl_cons, ih _ (by simp), h1]
      simp only [Option.getD_some, List.map_cons, List.sum_cons]
      congr 1
      omega

theorem flatScoreLE_trans (a b c : ScoreEntry) (h1 : scoreLE a b = true)
    (h2 : scoreLE b c = true) : scoreLE a c = true := by
  simp only [scoreLE, decide_eq_true_eq] at h1 h2 ⊢
  exact le_trans h1 h2

theorem flatScoreLE_total (a b : ScoreEntry) :
    (scoreLE a b || scoreLE b a) = true := by
  simp only [scoreLE, Bool.or_eq_true, decide_eq_true_eq]
  exact le_total a.score b.score

/-- C9: in the legacy flat scorer, for every list of registered documents
and every query, each registered document with at least one word receives
an entry whose score is the sum over the query words of the minimum edit
distance between that query word and any word of the (stored, lowercased)
document, divided by the number of query words, and the result list is
sorted ascending by this mean. -/
theorem C9_flat_scorer_mean (ds : List Doc) (q : Word) :
    (∀ D, D ∈ ds → D.words ≠ [] →
      ∃ e, e ∈ score (buildMap ds) q ∧ e.document = regDoc D ∧
        e.score = flatSpecScore (regDoc D) (tokenize q)) ∧
    (score (buildMap ds) q).Pairwise (fun a b => a.score ≤ b.score) := by
  constructor
  · intro D hD hw
    have hw' : (regDoc D).words ≠ [] := by
      intro h
      have h2 : D.words.map lowerWord = [] := h
      exact hw (List.map_eq_nil_iff.mp h2)
    have hf : ∀ sw, lookupD (regDoc D)
        ((buildMap ds).foldl (stepMins sw) []) =
        some (wordMinDist (regDoc D) sw) :=
      fun sw => minsList_lookup ds D hD hw' sw
    have hsum := sum_fold_lookup (buildMap ds) (regDoc D)
      (wordMinDist (regDoc D)) hf (tokenize q) []
      (QueryScorer.tokenize_ne_nil q)
    have hsum' : lookupD (regDoc D) ((tokenize q).foldl
        (fun sums sw =>
          ((buildMap ds).foldl (stepMins sw) []).foldl stepSums sums) []) =
        some (((tokenize q).map (wordMinDist (regDoc D))).sum) := by
      rw [hsum]
      simp [lookupD]
    have hmem0 := lookupD_mem _ _ _ hsum'
    refine ⟨ScoreEntry.mk (regDoc D)
      ((((tokenize q).map (wordMinDist (regDoc D))).sum : ℚ) /
        ((tokenize q).length : ℚ)), ?_, rfl, rfl⟩
    rw [flat_score_eval, List.mem_mergeSort]
    exact List.mem_map.mpr
      ⟨(regDoc D, ((tokenize q).map (wordMinDist (regDoc D))).sum), hmem0, rfl⟩
  · rw [flat_score_eval]
    refine List.Pairwise.imp ?_
      (List.sorted_mergeSort flatScoreLE_trans flatScoreLE_total _)
    intro a b h
    exact of_decide_eq_true h

theorem C9_flat_scorer_mean_witness :
    ∃ e, e ∈ score (buildMap [Doc.mk "a" [['a']]]) ['a'] ∧
      e.document = regDoc (Doc.mk "a" [['a']]) ∧
      e.score = flatSpecScore (regDoc (Doc.mk "a" [['a']])) (tokenize ['a']) :=
  (C9_flat_scorer_mean [Doc.mk "a" [['a']]] ['a']).1 (Doc.mk "a" [['a']])
    (List.mem_singleton.mpr rfl) (by simp)

end QueryScorerFlat
